import Mathlib

/-!
# MonoX workspace orchestration engine: a shallow embedding

This file embeds, in Lean 4, the core logic of the MonoX monorepo
orchestrator (a Rust program) and settles the frozen claims about it.

Modelling conventions:
* Rust `String` values are modelled as `List Char` (`Str`); Rust string
  ordering is byte-lexicographic which on these values coincides with
  lexicographic comparison of the characters.
* `usize` counters are modelled as `Nat` (the quantities involved are far
  from overflow and the source performs no wrapping arithmetic).
* `HashMap` / `HashSet` are modelled as association lists / lists; only
  their key-set and lookup behaviour is observed by the embedded code.
* The async scheduler is modelled twice: a sequential deterministic
  execution (one legal interleaving, used for counter/callback claims) and
  a small-step interleaving machine (used for the fail-fast claims), where
  each await point of `execute_task` is one atomic step.
* External crates (`petgraph`, `walkdir`, `glob`) are not source code of
  this repository; where their behaviour matters it is modelled by its
  documented specification (noted at each definition).
-/

set_option autoImplicit false

namespace Monox

/-- Rust `String`, seen as its list of characters. -/
abbrev Str := List Char

/-! ## Concurrency heuristic (src/core/checker.rs, `calculate_optimal_thread_count`)

The source obtains `cpu_count` from `std::thread::available_parallelism`;
it is passed here as a parameter. -/

/-- Embedding of `calculate_optimal_thread_count` from src/core/checker.rs.
The `match dependency_count` arms `0..=10`, `11..=50`, `51..=200`, `_`
become the nested conditionals; the final line is
`max(1, min(optimal_threads, dependency_count))`. -/
def calculate_optimal_thread_count (cpu_count dependency_count : Nat) : Nat :=
  max 1 (min
    (if dependency_count ≤ 10 then min dependency_count 2
     else if dependency_count ≤ 50 then min (dependency_count / 2) cpu_count
     else if dependency_count ≤ 200 then min (dependency_count / 4) (cpu_count * 2)
     else min (dependency_count / 8) (cpu_count * 3))
    dependency_count)

/-- The piecewise formula exactly as the spec words it (§4.5.4): a second
definition written from the specification text, to be compared with the
embedding of the code. -/
def optimal_concurrency (C n : Nat) : Nat :=
  max 1 (min
    (if n ≤ 10 then min n 2
     else if 11 ≤ n ∧ n ≤ 50 then min (n / 2) C
     else if 51 ≤ n ∧ n ≤ 200 then min (n / 4) (2 * C)
     else min (n / 8) (3 * C))
    n)

/-- C7: for every task count n ≥ 1 and host parallelism C ≥ 1, the code's
`calculate_optimal_thread_count` equals the spec's piecewise
`optimal_concurrency` formula, clamping included. -/
theorem C7_confirmed (n C : Nat) (hn : 1 ≤ n) (hC : 1 ≤ C) :
    calculate_optimal_thread_count C n = optimal_concurrency C n := by
  unfold calculate_optimal_thread_count optimal_concurrency
  split_ifs <;> omega

/-- Witness for C7 at n = 57, C = 4. -/
theorem C7_confirmed_witness :
    1 ≤ 57 ∧ 1 ≤ 4 ∧ calculate_optimal_thread_count 4 57 = optimal_concurrency 4 57 :=
  ⟨by decide, by decide, C7_confirmed 57 4 (by decide) (by decide)⟩

/-! ## Version-spec trimming (src/core/checker.rs, `extract_version_from_spec`)

`str::trim_start_matches(pat)` repeatedly removes the prefix `pat` as long
as the string starts with it. -/

/-- `trim_start_matches` with a one-character pattern: drops every leading
occurrence of `c`. -/
def trimChar (c : Char) : Str → Str
  | [] => []
  | x :: r => if x = c then trimChar c r else x :: r

/-- `trim_start_matches` with a two-character pattern `[a, b]`: drops the
leading pair as long as it matches. -/
def trimPair (a b : Char) : Str → Str
  | x :: y :: r => if x = a ∧ y = b then trimPair a b r else x :: y :: r
  | s => s

/-- Embedding of `extract_version_from_spec` from src/core/checker.rs: the
chained `trim_start_matches` calls for `^`, `~`, `>=`, `<=`, `>`, `<`, `=`
in source order (innermost `^` applied first). -/
def extract_version_from_spec (s : Str) : Str :=
  trimChar '=' (trimChar '<' (trimChar '>'
    (trimPair '<' '=' (trimPair '>' '=' (trimChar '~' (trimChar '^' s))))))

/-- The operator characters of the set `{^, ~, >=, <=, >, <, =}`. -/
def opChars : List Char := ['^', '~', '>', '<', '=']

/-- A version string is bare when it does not begin with an operator
character. -/
def isBare (s : Str) : Bool :=
  match s with
  | [] => true
  | c :: _ => decide (c ∉ opChars)

/-- What the claim describes: strip exactly one longest match from the
operator set (a two-character operator wins over its one-character
prefix). Written from the claim's words, for comparison. -/
def strip_one_longest (s : Str) : Str :=
  match s with
  | '>' :: '=' :: r => r
  | '<' :: '=' :: r => r
  | c :: r => if c ∈ opChars then r else c :: r
  | [] => []

theorem trimChar_eq_drop (c : Char) (s : Str) :
    ∃ k, k ≤ s.length ∧ trimChar c s = s.drop k ∧ ∀ x ∈ s.take k, x = c := by
  induction s with
  | nil => exact ⟨0, by simp [trimChar]⟩
  | cons x r ih =>
    by_cases hx : x = c
    · obtain ⟨k, hk, he, hall⟩ := ih
      refine ⟨k + 1, by simpa using hk, ?_, ?_⟩
      · simpa [trimChar, hx] using he
      · intro y hy
        have hy2 : y = x ∨ y ∈ r.take k := by simpa using hy
        rcases hy2 with h | h
        · simpa [h] using hx
        · exact hall y h
    · exact ⟨0, by simp [trimChar, hx]⟩

theorem trimPair_eq_drop (a b : Char) (s : Str) :
    ∃ k, k ≤ s.length ∧ trimPair a b s = s.drop k ∧ ∀ x ∈ s.take k, x = a ∨ x = b := by
  match s with
  | [] => exact ⟨0, by simp [trimPair]⟩
  | [x] => exact ⟨0, by simp [trimPair]⟩
  | x :: y :: r =>
    by_cases hxy : x = a ∧ y = b
    · obtain ⟨k, hk, he, hall⟩ := trimPair_eq_drop a b r
      refine ⟨k + 2, by simp; omega, ?_, ?_⟩
      · simpa [trimPair, hxy] using he
      · intro z hz
        have hz2 : z = x ∨ z = y ∨ z ∈ r.take k := by simpa using hz
        rcases hz2 with h | h | h
        · exact Or.inl (h.trans hxy.1)
        · exact Or.inr (h.trans hxy.2)
        · exact hall z h
    · exact ⟨0, by simp [trimPair, hxy]⟩

/-- A trimming stage drops a prefix made of operator characters only. -/
def StageOK (f : Str → Str) : Prop :=
  ∀ s : Str, ∃ k, k ≤ s.length ∧ f s = s.drop k ∧ ∀ x ∈ s.take k, x ∈ opChars

/-- One more trimming stage on top of an already-established drop. -/
theorem stage_step {f : Str → Str} (hf : StageOK f) {s t : Str} {k : Nat}
    (hk : k ≤ s.length) (he : t = s.drop k) (ha : ∀ x ∈ s.take k, x ∈ opChars) :
    ∃ k2, k2 ≤ s.length ∧ f t = s.drop k2 ∧ ∀ x ∈ s.take k2, x ∈ opChars := by
  obtain ⟨k3, hk3, he3, ha3⟩ := hf t
  have hlen : t.length = s.length - k := by rw [he]; simp
  refine ⟨k + k3, by omega, ?_, ?_⟩
  · rw [he3, he, List.drop_drop]
  · intro x hx
    rw [List.take_add] at hx
    rcases List.mem_append.mp hx with h | h
    · exact ha x h
    · have := ha3 x
      rw [he] at this
      exact this h

theorem stageOK_trimChar {c : Char} (hc : c ∈ opChars) : StageOK (trimChar c) := by
  intro s
  obtain ⟨k, hk, he, ha⟩ := trimChar_eq_drop c s
  exact ⟨k, hk, he, fun x hx => (ha x hx) ▸ hc⟩

theorem stageOK_trimPair {a b : Char} (ha : a ∈ opChars) (hb : b ∈ opChars) :
    StageOK (trimPair a b) := by
  intro s
  obtain ⟨k, hk, he, hall⟩ := trimPair_eq_drop a b s
  refine ⟨k, hk, he, fun x hx => ?_⟩
  rcases hall x hx with h | h
  · exact h ▸ ha
  · exact h ▸ hb

theorem extract_stageOK : StageOK extract_version_from_spec := by
  have h1 : StageOK (trimChar '^') := stageOK_trimChar (by decide)
  have h2 : StageOK (trimChar '~') := stageOK_trimChar (by decide)
  have h3 : StageOK (trimPair '>' '=') := stageOK_trimPair (by decide) (by decide)
  have h4 : StageOK (trimPair '<' '=') := stageOK_trimPair (by decide) (by decide)
  have h5 : StageOK (trimChar '>') := stageOK_trimChar (by decide)
  have h6 : StageOK (trimChar '<') := stageOK_trimChar (by decide)
  have h7 : StageOK (trimChar '=') := stageOK_trimChar (by decide)
  intro s
  obtain ⟨k1, hk1, he1, ha1⟩ := h1 s
  obtain ⟨k2, hk2, he2, ha2⟩ := stage_step h2 hk1 he1 ha1
  obtain ⟨k3, hk3, he3, ha3⟩ := stage_step h3 hk2 he2 ha2
  obtain ⟨k4, hk4, he4, ha4⟩ := stage_step h4 hk3 he3 ha3
  obtain ⟨k5, hk5, he5, ha5⟩ := stage_step h5 hk4 he4 ha4
  obtain ⟨k6, hk6, he6, ha6⟩ := stage_step h6 hk5 he5 ha5
  obtain ⟨k7, hk7, he7, ha7⟩ := stage_step h7 hk6 he6 ha6
  exact ⟨k7, hk7, he7, ha7⟩

theorem trimChar_of_head_ne {c x : Char} {r : Str} (h : x ≠ c) :
    trimChar c (x :: r) = x :: r := by
  simp [trimChar, h]

theorem trimPair_of_head_ne {a b x : Char} {r : Str} (h : x ≠ a) :
    trimPair a b (x :: r) = x :: r := by
  match r with
  | [] => rfl
  | y :: rr => simp [trimPair, h]

theorem trimChar_nil (c : Char) : trimChar c [] = [] := rfl

theorem trimPair_nil (a b : Char) : trimPair a b [] = [] := rfl

theorem trimChar_length_le (c : Char) (s : Str) :
    (trimChar c s).length ≤ s.length := by
  obtain ⟨k, _, he, _⟩ := trimChar_eq_drop c s
  rw [he]; simp

theorem trimPair_length_le (a b : Char) (s : Str) :
    (trimPair a b s).length ≤ s.length := by
  obtain ⟨k, _, he, _⟩ := trimPair_eq_drop a b s
  rw [he]; simp

theorem trimChar_cons_self_length (c : Char) (r : Str) :
    (trimChar c (c :: r)).length ≤ r.length := by
  have : trimChar c (c :: r) = trimChar c r := by simp [trimChar]
  rw [this]; exact trimChar_length_le c r

theorem trimChar_cons_self (c : Char) (r : Str) :
    trimChar c (c :: r) = trimChar c r := by
  simp [trimChar]

theorem trimPair_cons_match (a b : Char) (r : Str) :
    trimPair a b (a :: b :: r) = trimPair a b r := by
  simp [trimPair]

/-- When the spec begins with an operator character, the trimming chain
strictly shortens it. -/
theorem extract_length_lt {x : Char} {r : Str} (hx : x ∈ opChars) :
    (extract_version_from_spec (x :: r)).length < (x :: r).length := by
  have mono2 : ∀ t : Str, (trimChar '=' (trimChar '<' (trimChar '>' t))).length ≤ t.length := by
    intro t
    have i1 := trimChar_length_le '=' (trimChar '<' (trimChar '>' t))
    have i2 := trimChar_length_le '<' (trimChar '>' t)
    have i3 := trimChar_length_le '>' t
    omega
  have mono3 : ∀ t : Str,
      (trimChar '=' (trimChar '<' (trimChar '>' (trimPair '<' '=' t)))).length ≤ t.length := by
    intro t
    have i1 := mono2 (trimPair '<' '=' t)
    have i2 := trimPair_length_le '<' '=' t
    omega
  have mono4 : ∀ t : Str,
      (trimChar '=' (trimChar '<' (trimChar '>' (trimPair '<' '=' (trimPair '>' '=' t))))).length
        ≤ t.length := by
    intro t
    have i1 := mono3 (trimPair '>' '=' t)
    have i2 := trimPair_length_le '>' '=' t
    omega
  have mono5 : ∀ t : Str,
      (trimChar '=' (trimChar '<' (trimChar '>' (trimPair '<' '='
        (trimPair '>' '=' (trimChar '~' t)))))).length ≤ t.length := by
    intro t
    have i1 := mono4 (trimChar '~' t)
    have i2 := trimChar_length_le '~' t
    omega
  fin_cases hx
  · -- head is '^'
    unfold extract_version_from_spec
    rw [trimChar_cons_self]
    have i1 := mono5 (trimChar '^' r)
    have i2 := trimChar_length_le '^' r
    simp only [List.length_cons]
    omega
  · -- head is '~'
    unfold extract_version_from_spec
    rw [trimChar_of_head_ne (by decide), trimChar_cons_self]
    have i1 := mono4 (trimChar '~' r)
    have i2 := trimChar_length_le '~' r
    simp only [List.length_cons]
    omega
  · -- head is '>'
    unfold extract_version_from_spec
    rw [trimChar_of_head_ne (by decide), trimChar_of_head_ne (by decide)]
    match r with
    | [] => decide
    | y :: rr =>
      by_cases hy : y = '='
      · subst hy
        rw [trimPair_cons_match]
        have i1 := mono3 (trimPair '>' '=' rr)
        have i2 := trimPair_length_le '>' '=' rr
        simp only [List.length_cons]
        omega
      · have h1 : trimPair '>' '=' ('>' :: y :: rr) = '>' :: y :: rr := by
          simp [trimPair, hy]
        rw [h1, trimPair_of_head_ne (by decide), trimChar_cons_self]
        have i1 := mono2 (y :: rr)
        have i2 := trimChar_length_le '>' (y :: rr)
        simp only [List.length_cons] at i1 i2 ⊢
        omega
  · -- head is '<'
    unfold extract_version_from_spec
    rw [trimChar_of_head_ne (by decide), trimChar_of_head_ne (by decide),
      trimPair_of_head_ne (by decide)]
    match r with
    | [] => decide
    | y :: rr =>
      by_cases hy : y = '='
      · subst hy
        rw [trimPair_cons_match]
        have i1 := mono2 (trimPair '<' '=' rr)
        have i2 := trimPair_length_le '<' '=' rr
        simp only [List.length_cons]
        omega
      · have h1 : trimPair '<' '=' ('<' :: y :: rr) = '<' :: y :: rr := by
          simp [trimPair, hy]
        rw [h1, trimChar_of_head_ne (by decide), trimChar_cons_self]
        have i1 := trimChar_length_le '=' (trimChar '<' (y :: rr))
        have i2 := trimChar_length_le '<' (y :: rr)
        simp only [List.length_cons] at i2 ⊢
        omega
  · -- head is '='
    unfold extract_version_from_spec
    rw [trimChar_of_head_ne (by decide), trimChar_of_head_ne (by decide),
      trimPair_of_head_ne (by decide), trimPair_of_head_ne (by decide),
      trimChar_of_head_ne (by decide), trimChar_of_head_ne (by decide),
      trimChar_cons_self]
    have i1 := trimChar_length_le '=' r
    simp only [List.length_cons]
    omega

/-- C6 counterexample: on `"^^1.0.0"` the code strips both carets, while
"exactly one longest match" would strip only the first. -/
theorem C6_counterexample :
    extract_version_from_spec ("^^1.0.0".data) = "1.0.0".data ∧
    strip_one_longest ("^^1.0.0".data) = "^1.0.0".data ∧
    ("1.0.0".data : Str) ≠ "^1.0.0".data := by
  refine ⟨rfl, rfl, by decide⟩

/-- C6 amended: `extract_version_from_spec` is the identity on already-bare
versions (hence idempotent on them), and on a spec beginning with an
operator character it strips a nonempty prefix consisting of operator
characters only — possibly spanning several operators, not exactly one
longest match. -/
theorem C6_amended (s : Str) :
    (isBare s = true → extract_version_from_spec s = s) ∧
    (isBare s = false → ∃ k, 0 < k ∧ k ≤ s.length ∧
      extract_version_from_spec s = s.drop k ∧ ∀ x ∈ s.take k, x ∈ opChars) := by
  constructor
  · intro hb
    match s with
    | [] => rfl
    | c :: r =>
      have hc : c ∉ opChars := by
        simpa [isBare] using hb
      have n1 : c ≠ '^' := fun h => hc (h ▸ by decide)
      have n2 : c ≠ '~' := fun h => hc (h ▸ by decide)
      have n3 : c ≠ '>' := fun h => hc (h ▸ by decide)
      have n4 : c ≠ '<' := fun h => hc (h ▸ by decide)
      have n5 : c ≠ '=' := fun h => hc (h ▸ by decide)
      unfold extract_version_from_spec
      rw [trimChar_of_head_ne n1, trimChar_of_head_ne n2, trimPair_of_head_ne n3,
        trimPair_of_head_ne n4, trimChar_of_head_ne n3, trimChar_of_head_ne n4,
        trimChar_of_head_ne n5]
  · intro hb
    match s with
    | [] => simp [isBare] at hb
    | c :: r =>
      have hc : c ∈ opChars := by
        by_contra hcon
        simp [isBare, hcon] at hb
      obtain ⟨k, hk, he, ha⟩ := extract_stageOK (c :: r)
      refine ⟨k, ?_, hk, he, ha⟩
      rcases Nat.eq_zero_or_pos k with h0 | h0
      · subst h0
        have hlt := extract_length_lt (x := c) (r := r) hc
        rw [he] at hlt
        simp at hlt
      · exact h0

/-- Witness for C6 amended, both branches: `"1.2.3"` is bare and fixed;
`"~1.2.3"` begins with an operator. -/
theorem C6_amended_witness :
    (isBare ("1.2.3".data) = true ∧
      extract_version_from_spec ("1.2.3".data) = "1.2.3".data) ∧
    (isBare ("~1.2.3".data) = false ∧ ∃ k, 0 < k ∧ k ≤ ("~1.2.3".data).length ∧
      extract_version_from_spec ("~1.2.3".data) = ("~1.2.3".data).drop k ∧
      ∀ x ∈ ("~1.2.3".data).take k, x ∈ opChars) :=
  ⟨⟨by decide, (C6_amended ("1.2.3".data)).1 (by decide)⟩,
   ⟨by decide, (C6_amended ("~1.2.3".data)).2 (by decide)⟩⟩

/-! ## Version conflicts (src/core/checker.rs)

`check_version_conflicts` scans every manifest, collects per-dependency
usage lists (`collect_dependency_usages`, grouped in a `BTreeMap`), and
emits a `VersionConflict` per qualifying dependency
(`find_version_conflicts`, `calculate_recommended_version`). -/

/-- Byte-lexicographic order on Rust strings (`str::cmp`), expressed on the
character lists; `a ≤ b`. -/
def lexLe : Str → Str → Bool
  | [], _ => true
  | _ :: _, [] => false
  | a :: as, b :: bs => if a = b then lexLe as bs else decide (a < b)

theorem lexLe_refl (a : Str) : lexLe a a = true := by
  induction a with
  | nil => rfl
  | cons x r ih => simp [lexLe, ih]

theorem lexLe_total (a b : Str) : lexLe a b = true ∨ lexLe b a = true := by
  induction a generalizing b with
  | nil => left; rfl
  | cons x as ih =>
    cases b with
    | nil => right; rfl
    | cons y bs =>
      by_cases hxy : x = y
      · subst hxy
        simpa [lexLe] using ih bs
      · rcases lt_trichotomy x y with h | h | h
        · left; simp [lexLe, hxy, h]
        · exact absurd h hxy
        · have hyx : y ≠ x := fun hh => hxy hh.symm
          right; simp [lexLe, hyx, h]

theorem lexLe_trans {a b c : Str} (h1 : lexLe a b = true) (h2 : lexLe b c = true) :
    lexLe a c = true := by
  induction a generalizing b c with
  | nil => rfl
  | cons x as ih =>
    cases b with
    | nil => simp [lexLe] at h1
    | cons y bs =>
      cases c with
      | nil => simp [lexLe] at h2
      | cons z cs =>
        by_cases hxy : x = y <;> by_cases hyz : y = z
        · subst hxy; subst hyz
          simp only [lexLe, if_pos rfl] at h1 h2 ⊢
          exact ih h1 h2
        · subst hxy
          simpa [lexLe, hyz] using h2
        · subst hyz
          simpa [lexLe, hxy] using h1
        · have hx : x < y := by simpa [lexLe, hxy] using h1
          have hy : y < z := by simpa [lexLe, hyz] using h2
          have hxz : x < z := lt_trans hx hy
          simp [lexLe, ne_of_lt hxz, hxz]

/-- The order relation used for sorting resolved versions. -/
def LexLeP (a b : Str) : Prop := lexLe a b = true

instance : DecidableRel LexLeP := fun a b => by
  unfold LexLeP; infer_instance

instance : IsTotal Str LexLeP := ⟨lexLe_total⟩

instance : IsTrans Str LexLeP := ⟨fun _ _ _ => lexLe_trans⟩

instance : IsRefl Str LexLeP := ⟨lexLe_refl⟩

/-- Rust `Vec::sort` (stable sort by `Ord`): modelled as a sorted
permutation via insertion sort. -/
def sortVersions (l : List Str) : List Str := List.insertionSort LexLeP l

/-- Rust `Vec::dedup`: removes consecutive repeated elements. -/
def dedupAdj : List Str → List Str
  | [] => []
  | [x] => [x]
  | x :: y :: r => if x = y then dedupAdj (y :: r) else x :: dedupAdj (y :: r)

theorem dedupAdj_ne_nil {l : List Str} (h : l ≠ []) : dedupAdj l ≠ [] := by
  match l with
  | [x] => simp [dedupAdj]
  | x :: y :: r =>
    have ih := dedupAdj_ne_nil (l := y :: r) (by simp)
    by_cases hxy : x = y
    · simpa [dedupAdj, hxy] using ih
    · simp [dedupAdj, hxy]

theorem dedupAdj_getLast? (l : List Str) : (dedupAdj l).getLast? = l.getLast? := by
  match l with
  | [] => rfl
  | [x] => rfl
  | x :: y :: r =>
    have ih := dedupAdj_getLast? (y :: r)
    by_cases hxy : x = y
    · rw [show dedupAdj (x :: y :: r) = dedupAdj (y :: r) by simp [dedupAdj, hxy], ih,
        List.getLast?_cons_cons]
    · rw [show dedupAdj (x :: y :: r) = x :: dedupAdj (y :: r) by simp [dedupAdj, hxy]]
      obtain ⟨z, t, hzt⟩ := List.exists_cons_of_ne_nil (dedupAdj_ne_nil (l := y :: r) (by simp))
      rw [hzt, List.getLast?_cons_cons, ← hzt, ih, List.getLast?_cons_cons]

theorem dedupAdj_subset {l : List Str} {x : Str} (h : x ∈ dedupAdj l) : x ∈ l := by
  match l with
  | [] => simpa [dedupAdj] using h
  | [y] => simpa [dedupAdj] using h
  | y :: z :: r =>
    by_cases hyz : y = z
    · rw [show dedupAdj (y :: z :: r) = dedupAdj (z :: r) by simp [dedupAdj, hyz]] at h
      exact List.mem_cons_of_mem y (dedupAdj_subset h)
    · rw [show dedupAdj (y :: z :: r) = y :: dedupAdj (z :: r) by simp [dedupAdj, hyz]] at h
      rcases List.mem_cons.mp h with h | h
      · exact h ▸ List.mem_cons_self y _
      · exact List.mem_cons_of_mem y (dedupAdj_subset h)

/-- In a sorted list, every element is `lexLe` the last one. -/
theorem sorted_le_getLast? {l : List Str} (hs : List.Sorted LexLeP l) {m : Str}
    (hm : l.getLast? = some m) : ∀ v ∈ l, lexLe v m = true := by
  induction l with
  | nil => simp at hm
  | cons x t ih =>
    obtain ⟨hx, ht⟩ := List.sorted_cons.mp hs
    intro v hv
    cases t with
    | nil =>
      have hxm : x = m := by simpa using hm
      have hvx : v = x := by simpa using hv
      rw [hvx, hxm]
      exact lexLe_refl m
    | cons y tt =>
      rw [List.getLast?_cons_cons] at hm
      rcases List.mem_cons.mp hv with h | h
      · subst h
        exact hx m (List.mem_of_mem_getLast? hm)
      · exact ih ht hm v h

structure ConflictUsage where
  package : Str
  version_spec : Str
  resolved_version : Str
  dep_type : Str
deriving DecidableEq

structure VersionConflict where
  name : Str
  conflicts : List ConflictUsage
  recommended_version : Str
deriving DecidableEq

/-- Embedding of `calculate_recommended_version`: collect resolved
versions, sort, dedup, take the last (or "unknown"). -/
def calculate_recommended_version (usages : List ConflictUsage) : Str :=
  ((dedupAdj (sortVersions (usages.map (fun u => u.resolved_version)))).getLast?).getD
    ("unknown".data)

/-- The distinct values of a list, modelling the key set of the `HashMap`
built by `group_by_version` (each distinct `resolved_version` is one key). -/
def distinctList : List Str → List Str
  | [] => []
  | x :: r => if x ∈ r then distinctList r else x :: distinctList r

theorem mem_distinctList {l : List Str} {x : Str} : x ∈ distinctList l ↔ x ∈ l := by
  induction l with
  | nil => simp [distinctList]
  | cons y r ih =>
    by_cases hy : y ∈ r
    · rw [show distinctList (y :: r) = distinctList r by simp [distinctList, hy]]
      constructor
      · intro h; exact List.mem_cons_of_mem y (ih.mp h)
      · intro h
        rcases List.mem_cons.mp h with h | h
        · exact ih.mpr (h ▸ hy)
        · exact ih.mpr h
    · rw [show distinctList (y :: r) = y :: distinctList r by simp [distinctList, hy]]
      simp [ih]

/-- The number of distinct resolved versions among the usages
(`unique_versions.len()` in `find_version_conflicts`). -/
def distinctVersionCount (usages : List ConflictUsage) : Nat :=
  (distinctList (usages.map (fun u => u.resolved_version))).length

/-- The per-dependency body of the loop in `find_version_conflicts`:
skip when fewer than 2 usages, emit when more than one distinct resolved
version exists. -/
def processEntry (e : Str × List ConflictUsage) : Option VersionConflict :=
  if e.2.length < 2 then none
  else if 1 < distinctVersionCount e.2 then
    some ⟨e.1, e.2, calculate_recommended_version e.2⟩
  else none

/-- Embedding of `find_version_conflicts`: one pass over the grouped
usages. -/
def find_version_conflicts (entries : List (Str × List ConflictUsage)) :
    List VersionConflict :=
  entries.filterMap processEntry

/-- A parsed manifest, restricted to the fields the checker consumes. -/
structure Manifest where
  name : Str
  dependencies : List (Str × Str)
  devDependencies : List (Str × Str)
  peerDependencies : List (Str × Str)

/-- `pat.isPrefixOf s` composed over all suffixes: Rust `str::contains`. -/
def strContains (pat : Str) : Str → Bool
  | [] => pat.isEmpty
  | x :: r => pat.isPrefixOf (x :: r) || strContains pat r

/-- Embedding of `should_skip_dependency`. -/
def should_skip_dependency (version_spec : Str) : Bool :=
  ("workspace:".data).isPrefixOf version_spec ||
  ("file:".data).isPrefixOf version_spec ||
  ("link:".data).isPrefixOf version_spec ||
  strContains ("git+".data) version_spec ||
  strContains ("github:".data) version_spec

/-- Embedding of `collect_dependency_usages` for one manifest: iterate the
three dependency kinds in `DEP_TYPES` order, skip locally-resolving specs,
and record one usage per surviving dependency edge (tagged with the
dependency name it belongs to). -/
def collect_dependency_usages (m : Manifest) : List (Str × ConflictUsage) :=
  ([( "dependencies".data, m.dependencies),
    ("devDependencies".data, m.devDependencies),
    ("peerDependencies".data, m.peerDependencies)]).flatMap
    (fun td =>
      td.2.filterMap (fun dv =>
        if should_skip_dependency dv.2 then none
        else some (dv.1, ⟨m.name, dv.2, extract_version_from_spec dv.2, td.1⟩)))

/-- All usages recorded for dependency `d`, in insertion order (the order
the `BTreeMap` keeps its per-key `Vec`). -/
def usagesFor (ms : List Manifest) (d : Str) : List ConflictUsage :=
  (ms.flatMap collect_dependency_usages).filterMap
    (fun p => if p.1 = d then some p.2 else none)

/-- The key set of the `BTreeMap`, in its sorted iteration order. -/
def depNames (ms : List Manifest) : List Str :=
  sortVersions (distinctList ((ms.flatMap collect_dependency_usages).map (fun p => p.1)))

/-- Embedding of `check_version_conflicts` (scan already done: the parsed
manifests are the input). -/
def check_version_conflicts (ms : List Manifest) : List VersionConflict :=
  find_version_conflicts ((depNames ms).map (fun d => (d, usagesFor ms d)))

/-- The single manifest of the C5 counterexample: one package that uses
`left` at two different versions through two dependency kinds. -/
def c5Manifest : Manifest :=
  ⟨"P1".data, [("left".data, "^1.0.0".data)], [("left".data, "^2.0.0".data)], []⟩

/-- C5 counterexample: a conflict is emitted although only one distinct
package uses the dependency — two usages from the same package suffice,
refuting "used by at least 2 distinct packages". -/
theorem C5_counterexample :
    (check_version_conflicts [c5Manifest]).length = 1 ∧
    (distinctList ((usagesFor [c5Manifest] ("left".data)).map (fun u => u.package))).length
      = 1 := by
  constructor <;> rfl

/-- When a dependency name has at least one usage record, it is a key of
the grouped map (it appears in `depNames`). -/
theorem mem_depNames_of_usages {ms : List Manifest} {d : Str}
    (h : usagesFor ms d ≠ []) : d ∈ depNames ms := by
  obtain ⟨u, hu⟩ := List.exists_mem_of_ne_nil _ h
  obtain ⟨p, hp, hpu⟩ := List.mem_filterMap.mp hu
  have hpd : p.1 = d := by
    by_cases hq : p.1 = d
    · exact hq
    · rw [if_neg hq] at hpu
      cases hpu
  unfold depNames
  refine (List.mem_insertionSort LexLeP).mpr (mem_distinctList.mpr ?_)
  exact hpd ▸ List.mem_map_of_mem (fun p => p.1) hp

/-- C5 amended: a `VersionConflict` is emitted for a dependency name
exactly when it has at least 2 usage records (possibly from a single
package via different dependency kinds) whose resolved versions take at
least 2 distinct values; and every emitted conflict carries the full
usage list and a `recommended_version` that is the lexicographic maximum
of the resolved versions. -/
theorem C5_amended (ms : List Manifest) (d : Str) :
    ((∃ c, c ∈ check_version_conflicts ms ∧ c.name = d) ↔
      2 ≤ (usagesFor ms d).length ∧ 2 ≤ distinctVersionCount (usagesFor ms d)) ∧
    (∀ c, c ∈ check_version_conflicts ms → c.name = d →
      c.conflicts = usagesFor ms d ∧
      c.recommended_version ∈ c.conflicts.map (fun u => u.resolved_version) ∧
      ∀ v ∈ c.conflicts.map (fun u => u.resolved_version),
        lexLe v c.recommended_version = true) := by
  constructor
  · constructor
    · -- soundness: an emitted conflict for d forces the two conditions
      rintro ⟨c, hc, hname⟩
      obtain ⟨e, he, hpe⟩ := List.mem_filterMap.mp hc
      obtain ⟨d', hd', hde⟩ := List.mem_map.mp he
      subst hde
      unfold processEntry at hpe
      by_cases h1 : (usagesFor ms d').length < 2
      · simp [h1] at hpe
      · by_cases h2 : 1 < distinctVersionCount (usagesFor ms d')
        · simp only [h1, if_false, h2, if_true, Option.some_inj] at hpe
          have hdd : d' = d := by rw [← hname, ← hpe]
          subst hdd
          exact ⟨by omega, by omega⟩
        · simp [h1, h2] at hpe
    · -- completeness: the two conditions force an emitted conflict for d
      rintro ⟨h1, h2⟩
      have hne : usagesFor ms d ≠ [] := by
        intro h
        rw [h] at h1
        simp at h1
      have hdn : d ∈ depNames ms := mem_depNames_of_usages hne
      have hentry : (d, usagesFor ms d)
          ∈ (depNames ms).map (fun d => (d, usagesFor ms d)) :=
        List.mem_map_of_mem (fun d => (d, usagesFor ms d)) hdn
      have hpe : processEntry (d, usagesFor ms d)
          = some ⟨d, usagesFor ms d, calculate_recommended_version (usagesFor ms d)⟩ := by
        unfold processEntry
        show (if (usagesFor ms d).length < 2 then none
          else if 1 < distinctVersionCount (usagesFor ms d) then
            some (⟨d, usagesFor ms d, calculate_recommended_version (usagesFor ms d)⟩ :
              VersionConflict)
          else none)
          = some ⟨d, usagesFor ms d, calculate_recommended_version (usagesFor ms d)⟩
        rw [if_neg (by omega), if_pos (by omega)]
      exact ⟨⟨d, usagesFor ms d, calculate_recommended_version (usagesFor ms d)⟩,
        List.mem_filterMap.mpr ⟨(d, usagesFor ms d), hentry, hpe⟩, rfl⟩
  · -- properties of every emitted conflict for d
    intro c hc hname
    obtain ⟨e, he, hpe⟩ := List.mem_filterMap.mp hc
    obtain ⟨d', hd', hde⟩ := List.mem_map.mp he
    subst hde
    unfold processEntry at hpe
    by_cases h1 : (usagesFor ms d').length < 2
    · simp [h1] at hpe
    · by_cases h2 : 1 < distinctVersionCount (usagesFor ms d')
      · simp only [h1, if_false, h2, if_true, Option.some_inj] at hpe
        have hdd : d' = d := by rw [← hname, ← hpe]
        subst hpe
        have hne : (usagesFor ms d').map (fun u => u.resolved_version) ≠ [] := by
          intro h
          have hlen := congrArg List.length h
          simp only [List.length_map, List.length_nil] at hlen
          omega
        have hsne : sortVersions ((usagesFor ms d').map (fun u => u.resolved_version)) ≠ [] := by
          intro h
          have hl := (List.perm_insertionSort LexLeP
            ((usagesFor ms d').map (fun u => u.resolved_version))).length_eq
          unfold sortVersions at h
          rw [h] at hl
          simp only [List.length_nil] at hl
          exact hne (List.eq_nil_of_length_eq_zero hl.symm)
        have hm : (sortVersions ((usagesFor ms d').map (fun u => u.resolved_version))).getLast?
            = some ((sortVersions ((usagesFor ms d').map (fun u => u.resolved_version))).getLast
              hsne) :=
          List.getLast?_eq_getLast _ hsne
        have hrec : calculate_recommended_version (usagesFor ms d')
            = (sortVersions ((usagesFor ms d').map (fun u => u.resolved_version))).getLast
              hsne := by
          unfold calculate_recommended_version
          rw [dedupAdj_getLast?, hm]
          rfl
        refine ⟨by rw [hdd], ?_, ?_⟩
        · -- the recommended version is one of the resolved versions
          show calculate_recommended_version (usagesFor ms d')
            ∈ (usagesFor ms d').map (fun u => u.resolved_version)
          rw [hrec]
          have hmem : (sortVersions ((usagesFor ms d').map
                (fun u => u.resolved_version))).getLast hsne
              ∈ sortVersions ((usagesFor ms d').map (fun u => u.resolved_version)) :=
            List.mem_of_mem_getLast? (by simp [hm])
          exact (List.mem_insertionSort LexLeP).mp hmem
        · -- every resolved version is lexLe the recommended one
          intro v hv
          show lexLe v (calculate_recommended_version (usagesFor ms d')) = true
          rw [hrec]
          have hsorted : List.Sorted LexLeP
              (sortVersions ((usagesFor ms d').map (fun u => u.resolved_version))) :=
            List.sorted_insertionSort LexLeP _
          exact sorted_le_getLast? hsorted hm v ((List.mem_insertionSort LexLeP).mpr hv)
      · simp [h1, h2] at hpe

/-- The conflict record that `check_version_conflicts` produces on the C5
counterexample manifest. -/
def c5Conflict : VersionConflict :=
  ⟨"left".data,
   [⟨"P1".data, "^1.0.0".data, "1.0.0".data, "dependencies".data⟩,
    ⟨"P1".data, "^2.0.0".data, "2.0.0".data, "devDependencies".data⟩],
   "2.0.0".data⟩

/-- Witness for C5 amended at the concrete single-package workspace:
both directions of the biconditional and the conflict-property clause
applied at `c5Manifest` / `left` / `c5Conflict`. -/
theorem C5_amended_witness :
    (∃ c, c ∈ check_version_conflicts [c5Manifest] ∧ c.name = "left".data) ∧
    (2 ≤ (usagesFor [c5Manifest] ("left".data)).length ∧
      2 ≤ distinctVersionCount (usagesFor [c5Manifest] ("left".data))) ∧
    (c5Conflict.conflicts = usagesFor [c5Manifest] ("left".data) ∧
      c5Conflict.recommended_version
        ∈ c5Conflict.conflicts.map (fun u => u.resolved_version) ∧
      ∀ v ∈ c5Conflict.conflicts.map (fun u => u.resolved_version),
        lexLe v c5Conflict.recommended_version = true) :=
  ⟨(C5_amended [c5Manifest] ("left".data)).1.mpr (by decide),
   (C5_amended [c5Manifest] ("left".data)).1.mp
     ⟨c5Conflict, by decide, by decide⟩,
   (C5_amended [c5Manifest] ("left".data)).2 c5Conflict (by decide) (by decide)⟩

/-! ## Workspace scan (src/core/analyzer.rs, `scan_workspace_packages`)

The walk over the workspace tree is `walkdir::WalkDir` with
`filter_entry`: the predicate is evaluated on every entry (the root
included); an entry on which it fails is not yielded and its subtree is
not descended into.  `scan_workspace_packages` passes
`!Config::should_ignore_path(relative_path)` as the predicate, where
`relative_path = entry.path().strip_prefix(workspace_root)`.

Paths are modelled as lists of components; the ignore predicate is kept
abstract (a function on relative paths), since the claim is about which
path the predicate receives and about pruning. -/

/-- A directory tree. -/
inductive FsEntry where
  | file (nm : Str)
  | dir (nm : Str) (children : List FsEntry)

/-- The name of an entry. -/
def FsEntry.nameOf : FsEntry → Str
  | .file n => n
  | .dir n _ => n

/-- All relative paths on which the walk consults the ignore predicate,
starting from an entry whose path relative to the workspace root is
`rel` (walkdir pre-order). -/
def consultedPaths (ign : List Str → Bool) (rel : List Str) : FsEntry → List (List Str)
  | .file _ => [rel]
  | .dir _ children =>
    rel :: (if ign rel then [] else
      children.attach.flatMap (fun c => consultedPaths ign (rel ++ [c.1.nameOf]) c.1))
termination_by e => sizeOf e
decreasing_by
  have := List.sizeOf_lt_of_mem c.2
  simp only [FsEntry.dir.sizeOf_spec]
  omega

/-- The `package.json` files the scan collects (as their relative paths):
entries surviving the predicate, named `package.json`, and not directly in
the workspace root (`package_path.parent == workspace_root` is skipped). -/
def collectedPackages (ign : List Str → Bool) (rel : List Str) : FsEntry → List (List Str)
  | .file nm =>
    if ign rel then []
    else if nm = "package.json".data ∧ 2 ≤ rel.length then [rel] else []
  | .dir _ children =>
    if ign rel then []
    else children.attach.flatMap (fun c => collectedPackages ign (rel ++ [c.1.nameOf]) c.1)
termination_by e => sizeOf e
decreasing_by
  have := List.sizeOf_lt_of_mem c.2
  simp only [FsEntry.dir.sizeOf_spec]
  omega

/-- The scan as the code performs it: the workspace root is consulted with
the empty relative path, every entry with its path relative to the
workspace root. -/
def scan_consulted (ign : List Str → Bool) (root : FsEntry) : List (List Str) :=
  consultedPaths ign [] root

/-- Modelled from the spec: the same walk, but the predicate receives each
entry's path relative to the workspace's PARENT directory, which prepends
the workspace directory's own name to every consulted path. -/
def scan_consulted_parent_rel (ign : List Str → Bool) (root : FsEntry) : List (List Str) :=
  consultedPaths ign [root.nameOf] root

/-- The workspace of the C8 counterexample. -/
def c8Tree : FsEntry :=
  .dir ("ws".data) [.dir ("packages".data) [.file ("package.json".data)]]

/-- C8 counterexample: the ignore predicate receives paths relative to the
workspace root itself, not to its parent — on a concrete workspace the two
conventions produce different consulted paths. -/
theorem C8_counterexample :
    scan_consulted (fun _ => false) c8Tree
      = [[], ["packages".data], ["packages".data, "package.json".data]] ∧
    scan_consulted_parent_rel (fun _ => false) c8Tree
      = [["ws".data], ["ws".data, "packages".data],
         ["ws".data, "packages".data, "package.json".data]] ∧
    scan_consulted (fun _ => false) c8Tree
      ≠ scan_consulted_parent_rel (fun _ => false) c8Tree := by
  refine ⟨?_, ?_, ?_⟩
  · simp [scan_consulted, c8Tree, consultedPaths, FsEntry.nameOf]
  · simp [scan_consulted_parent_rel, c8Tree, consultedPaths, FsEntry.nameOf]
  · simp [scan_consulted, scan_consulted_parent_rel, c8Tree, consultedPaths, FsEntry.nameOf]

theorem consultedPaths_prefix (ign : List Str → Bool) (rel : List Str) (e : FsEntry) :
    ∀ q ∈ consultedPaths ign rel e, rel <+: q := by
  match e with
  | .file nm =>
    intro q hq
    have : q = rel := by simpa [consultedPaths] using hq
    exact this ▸ List.prefix_refl rel
  | .dir nm children =>
    intro q hq
    rw [consultedPaths] at hq
    rcases List.mem_cons.mp hq with h | h
    · exact h ▸ List.prefix_refl rel
    · by_cases hig : ign rel
      · simp [hig] at h
      · rw [if_neg hig] at h
        obtain ⟨c, hc, hqc⟩ := List.mem_flatMap.mp h
        have hpre := consultedPaths_prefix ign (rel ++ [c.1.nameOf]) c.1 q hqc
        exact List.IsPrefix.trans ⟨[c.1.nameOf], rfl⟩ hpre
termination_by sizeOf e
decreasing_by
  have := List.sizeOf_lt_of_mem c.2
  simp only [FsEntry.dir.sizeOf_spec]
  omega

/-- C8 amended: during the workspace scan the ignore predicate is
consulted with the entry's path relative to the WORKSPACE ROOT (the
consulted paths all extend the root-relative prefix), and whenever the
predicate returns true on an entry, nothing below that entry is consulted
or collected: the walk visits only the entry itself and prunes the
subtree. -/
theorem C8_amended (ign : List Str → Bool) (rel : List Str) (e : FsEntry) :
    (ign rel = true → consultedPaths ign rel e = [rel] ∧ collectedPackages ign rel e = []) ∧
    (∀ q ∈ consultedPaths ign rel e, rel <+: q) ∧
    (∀ q ∈ consultedPaths ign rel e, ∀ r, rel <+: r → r <+: q → r ≠ q → ign r = false) := by
  refine ⟨?_, consultedPaths_prefix ign rel e, ?_⟩
  · intro hig
    match e with
    | .file nm =>
      constructor
      · rw [consultedPaths]
      · rw [collectedPackages, if_pos hig]
    | .dir nm children =>
      constructor
      · rw [consultedPaths, if_pos hig]
      · rw [collectedPackages, if_pos hig]
  · match e with
    | .file nm =>
      intro q hq r h1 h2 h3
      have hqr : q = rel := by simpa [consultedPaths] using hq
      subst hqr
      have a1 := h1.length_le
      have a2 := h2.length_le
      exact absurd (h2.eq_of_length (by omega)) h3
    | .dir nm children =>
      intro q hq r h1 h2 h3
      rw [consultedPaths] at hq
      rcases List.mem_cons.mp hq with h | h
      · have a1 := h1.length_le
        have a2 := h2.length_le
        have a3 : q.length = rel.length := by rw [h]
        exact absurd (h2.eq_of_length (by omega)) h3
      · by_cases hig : ign rel
        · simp [hig] at h
        · rw [if_neg hig] at h
          obtain ⟨c, hc, hqc⟩ := List.mem_flatMap.mp h
          have hchild : (rel ++ [c.1.nameOf]) <+: q :=
            consultedPaths_prefix ign (rel ++ [c.1.nameOf]) c.1 q hqc
          by_cases hrrel : r = rel
          · subst hrrel
            simpa using hig
          · have hcomp := List.prefix_or_prefix_of_prefix h2 hchild
            rcases hcomp with hco | hco
            · -- r is a prefix of rel ++ [child name]; with rel ≤ r it is
              -- rel itself or the child path
              have hlen1 := h1.length_le
              have hlen2 := hco.length_le
              simp only [List.length_append, List.length_cons, List.length_nil] at hlen2
              have : r.length = rel.length ∨ r.length = rel.length + 1 := by omega
              rcases this with hl | hl
              · exact absurd (List.IsPrefix.eq_of_length h1 hl.symm).symm hrrel
              · have hreq : r = rel ++ [c.1.nameOf] :=
                  List.IsPrefix.eq_of_length hco (by simpa using hl)
                subst hreq
                -- r equals the child's own relative path: if it were
                -- ignored the child walk would consult only itself
                by_cases hq2 : (rel ++ [c.1.nameOf]) = q
                · exact absurd hq2 h3
                · by_contra hcontra
                  have hig2 : ign (rel ++ [c.1.nameOf]) = true := by
                    cases hb : ign (rel ++ [c.1.nameOf])
                    · exact absurd hb hcontra
                    · rfl
                  have hsingle := ((C8_amended ign (rel ++ [c.1.nameOf]) c.1).1 hig2).1
                  rw [hsingle] at hqc
                  exact hq2 (List.mem_singleton.mp hqc).symm
            · exact (C8_amended ign (rel ++ [c.1.nameOf]) c.1).2.2 q hqc r hco h2 h3
termination_by sizeOf e
decreasing_by
  all_goals
    have := List.sizeOf_lt_of_mem c.2
    simp only [FsEntry.dir.sizeOf_spec]
    omega

/-- Witness for C8 amended: with a predicate that ignores the root, the
walk consults only the root and collects nothing. -/
theorem C8_amended_witness :
    consultedPaths (fun _ => true) [] c8Tree = [[]] ∧
    collectedPackages (fun _ => true) [] c8Tree = [] :=
  (C8_amended (fun _ => true) [] c8Tree).1 rfl

/-! ## Dependency analysis (src/core/analyzer.rs)

`analyze` scans packages, marks workspace dependencies
(`analyze_workspace_dependencies`), builds the graph, detects circular
dependencies (Tarjan SCCs of size > 1 via the external `petgraph` crate),
and computes build stages (`calculate_build_stages`) only when no cycle
was reported.

A package is reduced to its name and the key set of its merged dependency
map; versions and scripts play no role in staging. -/

/-- A scanned package: its name and the keys of its dependency map. -/
structure RawPkg where
  name : Str
  deps : List Str
deriving DecidableEq

/-- A package after workspace analysis: name plus the
`workspace_dependencies` list. -/
structure WPkg where
  name : Str
  workspace_dependencies : List Str
deriving DecidableEq

/-- The set of package names in the workspace. -/
def workspaceNames (pkgs : List RawPkg) : List Str := pkgs.map (fun p => p.name)

/-- Embedding of `analyze_workspace_dependencies`: each package's
workspace dependencies are its dependency keys that name another package
of the workspace. -/
def analyze_workspace_dependencies (pkgs : List RawPkg) : List WPkg :=
  pkgs.map (fun p => ⟨p.name, p.deps.filter (fun d => decide (d ∈ workspaceNames pkgs))⟩)

/-- Names of analyzed packages. -/
def wNames (ps : List WPkg) : List Str := ps.map (fun p => p.name)

/-- The `package_map` of `calculate_build_stages`: a `HashMap` collected
from the package list, so a duplicated name keeps the last occurrence. -/
def pkgMap (ps : List WPkg) (n : Str) : Option WPkg :=
  (ps.filter (fun p => decide (p.name = n))).getLast?

/-- The workspace dependencies the stage loop consults for a name. -/
def wdepsOf (ps : List WPkg) (n : Str) : List Str :=
  match pkgMap ps n with
  | some p => p.workspace_dependencies
  | none => []

/-- One pass of the stage loop: the unstaged packages whose workspace
dependencies are all already staged (`can_build_now`). -/
def stageReady (ps : List WPkg) (unstaged : List Str) : List Str :=
  unstaged.filter (fun n => (wdepsOf ps n).all (fun d => decide (d ∉ unstaged)))

/-- The `while !unstaged_packages.is_empty()` loop of
`calculate_build_stages`, with explicit fuel; an empty candidate stage
breaks out of the loop keeping the stages found so far. -/
def buildStagesAux (ps : List WPkg) : Nat → List Str → List (List Str)
  | 0, _ => []
  | fuel + 1, unstaged =>
    if unstaged.isEmpty then []
    else if (stageReady ps unstaged).isEmpty then []
    else stageReady ps unstaged ::
      buildStagesAux ps fuel
        (unstaged.filter (fun n => decide (n ∉ stageReady ps unstaged)))

/-- Embedding of `calculate_build_stages` (stages listed by package name);
the fuel equals the size of the initial unstaged set, which C9 shows to be
enough. -/
def calculate_build_stages (ps : List WPkg) : List (List Str) :=
  buildStagesAux ps (distinctList (wNames ps)).length (distinctList (wNames ps))

/-- The dependency-graph edge relation: `edgeB ps d p` holds when the
graph has the edge `d → p`, i.e. some package named `p` lists `d` among
its workspace dependencies (`build_dependency_graph`). -/
def edgeB (ps : List WPkg) (d p : Str) : Bool :=
  ps.any (fun pk => decide (pk.name = p ∧ d ∈ pk.workspace_dependencies))

/-- Graph reachability along dependency edges. -/
def Reach (ps : List WPkg) : Str → Str → Prop :=
  Relation.ReflTransGen (fun a b => edgeB ps a b = true)

/-- Existence of a strongly connected component of size ≥ 2: two distinct
mutually reachable nodes. -/
def NontrivialSCC (ps : List WPkg) : Prop :=
  ∃ u v, u ≠ v ∧ Reach ps u v ∧ Reach ps v u

/-- The graph's node set. -/
def nodeFinset (ps : List WPkg) : Finset Str := (wNames ps).toFinset

/-- Successors of a node along graph edges. -/
def succs (ps : List WPkg) (u : Str) : Finset Str :=
  (nodeFinset ps).filter (fun v => edgeB ps u v = true)

/-- One step of reachable-set expansion. -/
def expand (ps : List WPkg) (S : Finset Str) : Finset Str :=
  S ∪ S.biUnion (succs ps)

/-- Iterated expansion. -/
def expandN (ps : List WPkg) : Nat → Finset Str → Finset Str
  | 0, S => S
  | n + 1, S => expandN ps n (expand ps S)

/-- The set of nodes reachable from `u`: the expansion saturates within
`|nodes| + 1` rounds. -/
def reachSet (ps : List WPkg) (u : Str) : Finset Str :=
  expandN ps ((nodeFinset ps).card + 1) {u}

/-- Executable test for a strongly connected component of size ≥ 2.
`petgraph::algo::tarjan_scc` is an external crate, not source of this
repository; `detect_circular_dependencies` keeps exactly its components
of size > 1, so its result is nonempty iff two distinct mutually
reachable nodes exist, which is what this decides. -/
def hasNontrivialSCCB (ps : List WPkg) : Bool :=
  (wNames ps).any (fun u => (wNames ps).any (fun v =>
    decide (u ≠ v) && decide (v ∈ reachSet ps u) && decide (u ∈ reachSet ps v)))

/-- The stage computation of `analyze` (steps 4–5): stages are computed
only when `detect_circular_dependencies` reported no cycle, otherwise the
stage list is empty. -/
def analyze_stages (pkgs : List RawPkg) : List (List Str) :=
  if hasNontrivialSCCB (analyze_workspace_dependencies pkgs) then []
  else calculate_build_stages (analyze_workspace_dependencies pkgs)

theorem edgeB_target_mem {ps : List WPkg} {d p : Str} (h : edgeB ps d p = true) :
    p ∈ wNames ps := by
  obtain ⟨pk, hpk, hcond⟩ := List.any_eq_true.mp h
  have := of_decide_eq_true hcond
  exact List.mem_map.mpr ⟨pk, hpk, this.1⟩

theorem succs_subset_nodes (ps : List WPkg) (u : Str) : succs ps u ⊆ nodeFinset ps :=
  Finset.filter_subset _ _

theorem subset_expand (ps : List WPkg) (S : Finset Str) : S ⊆ expand ps S :=
  Finset.subset_union_left

theorem expand_mono {ps : List WPkg} {S T : Finset Str} (h : S ⊆ T) :
    expand ps S ⊆ expand ps T :=
  Finset.union_subset_union h (Finset.biUnion_subset_biUnion_of_subset_left _ h)

theorem expandN_mono {ps : List WPkg} (n : Nat) {S T : Finset Str} (h : S ⊆ T) :
    expandN ps n S ⊆ expandN ps n T := by
  induction n generalizing S T with
  | zero => exact h
  | succ n ih => exact ih (expand_mono h)

theorem subset_expandN (ps : List WPkg) (n : Nat) (S : Finset Str) :
    S ⊆ expandN ps n S := by
  induction n generalizing S with
  | zero => exact Finset.Subset.refl S
  | succ n ih => exact (subset_expand ps S).trans (ih (expand ps S))

theorem expandN_out (ps : List WPkg) (n : Nat) (S : Finset Str) :
    expandN ps (n + 1) S = expand ps (expandN ps n S) := by
  induction n generalizing S with
  | zero => rfl
  | succ n ih =>
    show expandN ps (n + 1) (expand ps S) = _
    rw [ih (expand ps S)]
    rfl

theorem expandN_add (ps : List WPkg) (m n : Nat) (S : Finset Str) :
    expandN ps (m + n) S = expandN ps n (expandN ps m S) := by
  induction m generalizing S with
  | zero => rw [Nat.zero_add]; rfl
  | succ m ih =>
    calc expandN ps (m + 1 + n) S = expandN ps (m + n + 1) S := by rw [Nat.succ_add]
      _ = expandN ps (m + n) (expand ps S) := rfl
      _ = expandN ps n (expandN ps m (expand ps S)) := ih _
      _ = expandN ps n (expandN ps (m + 1) S) := rfl

theorem expandN_fix {ps : List WPkg} {S : Finset Str} (h : expand ps S = S) (n : Nat) :
    expandN ps n S = S := by
  induction n with
  | zero => rfl
  | succ n ih =>
    rw [expandN_out, ih, h]

theorem mem_expandN_reach {ps : List WPkg} :
    ∀ (n : Nat) (S : Finset Str) (v : Str), v ∈ expandN ps n S →
      ∃ u ∈ S, Reach ps u v := by
  intro n
  induction n with
  | zero => exact fun S v hv => ⟨v, hv, Relation.ReflTransGen.refl⟩
  | succ n ih =>
    intro S v hv
    obtain ⟨u, hu, hr⟩ := ih (expand ps S) v hv
    rcases Finset.mem_union.mp hu with h | h
    · exact ⟨u, h, hr⟩
    · obtain ⟨w, hw, hus⟩ := Finset.mem_biUnion.mp h
      have he : edgeB ps w u = true := (Finset.mem_filter.mp hus).2
      have hstep : Reach ps w u := Relation.ReflTransGen.single he
      exact ⟨w, hw, hstep.trans hr⟩

theorem expand_bound {ps : List WPkg} {S B : Finset Str}
    (hS : S ⊆ B) (hB : nodeFinset ps ⊆ B) : expand ps S ⊆ B := by
  refine Finset.union_subset hS (Finset.biUnion_subset.mpr fun w _ => ?_)
  exact (succs_subset_nodes ps w).trans hB

theorem expandN_bound {ps : List WPkg} {S B : Finset Str}
    (hS : S ⊆ B) (hB : nodeFinset ps ⊆ B) (n : Nat) : expandN ps n S ⊆ B := by
  induction n generalizing S with
  | zero => exact hS
  | succ n ih => exact ih (expand_bound hS hB)

theorem reachSet_fixed (ps : List WPkg) (u : Str) :
    expand ps (reachSet ps u) = reachSet ps u := by
  set B : Finset Str := insert u (nodeFinset ps) with hB
  have hBsub : nodeFinset ps ⊆ B := Finset.subset_insert u _
  have hSsub : ({u} : Finset Str) ⊆ B := by
    intro x hx
    rw [Finset.mem_singleton.mp hx]
    exact Finset.mem_insert_self u _
  have hcard : B.card ≤ (nodeFinset ps).card + 1 := Finset.card_insert_le u _
  -- some expansion from {u} is a fixpoint within B.card steps
  have hfix : ∃ j ≤ (nodeFinset ps).card,
      expand ps (expandN ps j {u}) = expandN ps j {u} := by
    by_contra hcon
    push_neg at hcon
    have grow : ∀ k, k ≤ (nodeFinset ps).card + 1 → k + 1 ≤ (expandN ps k {u}).card := by
      intro k
      induction k with
      | zero => intro _; simp [expandN]
      | succ k ih =>
        intro hk
        have hk' : k ≤ (nodeFinset ps).card := by omega
        have h1 := ih (by omega)
        have hne := hcon k hk'
        have hssub : expandN ps k {u} ⊂ expand ps (expandN ps k {u}) :=
          HasSubset.Subset.ssubset_of_ne (subset_expand ps _) (Ne.symm hne)
        have := Finset.card_lt_card hssub
        rw [expandN_out]
        omega
    have hlast := grow ((nodeFinset ps).card + 1) (le_refl _)
    have hbound : expandN ps ((nodeFinset ps).card + 1) {u} ⊆ B :=
      expandN_bound hSsub hBsub _
    have := Finset.card_le_card hbound
    omega
  obtain ⟨j, hj, hjfix⟩ := hfix
  have hdecomp : reachSet ps u = expandN ps j {u} := by
    unfold reachSet
    have : (nodeFinset ps).card + 1 = j + ((nodeFinset ps).card + 1 - j) := by omega
    rw [this, expandN_add, expandN_fix hjfix]
  rw [hdecomp, hjfix]

theorem reach_complete {ps : List WPkg} {u v : Str} (h : Reach ps u v) :
    v ∈ reachSet ps u := by
  induction h with
  | refl => exact subset_expandN ps _ {u} (Finset.mem_singleton_self u)
  | tail hwb he ih =>
    rename_i b c
    have hfix := reachSet_fixed ps u
    rw [← hfix]
    apply Finset.mem_union_right
    apply Finset.mem_biUnion.mpr
    refine ⟨b, ih, Finset.mem_filter.mpr ⟨?_, he⟩⟩
    exact List.mem_toFinset.mpr (edgeB_target_mem he)

theorem reach_sound {ps : List WPkg} {u v : Str} (h : v ∈ reachSet ps u) :
    Reach ps u v := by
  obtain ⟨w, hw, hr⟩ := mem_expandN_reach _ _ v h
  rw [Finset.mem_singleton.mp hw] at hr
  exact hr

/-- The executable SCC test agrees with the mathematical statement. -/
theorem hasNontrivialSCCB_iff (ps : List WPkg) :
    hasNontrivialSCCB ps = true ↔ NontrivialSCC ps := by
  constructor
  · intro h
    obtain ⟨u, _, h2⟩ := List.any_eq_true.mp h
    obtain ⟨v, _, h4⟩ := List.any_eq_true.mp h2
    simp only [Bool.and_eq_true, decide_eq_true_eq] at h4
    exact ⟨u, v, h4.1.1, reach_sound h4.1.2, reach_sound h4.2⟩
  · rintro ⟨u, v, hne, huv, hvu⟩
    have humem : u ∈ wNames ps := by
      rcases hvu.cases_tail with h | ⟨c, _, hcu⟩
      · exact absurd h hne
      · exact edgeB_target_mem hcu
    have hvmem : v ∈ wNames ps := by
      rcases huv.cases_tail with h | ⟨c, _, hcv⟩
      · exact absurd h.symm hne
      · exact edgeB_target_mem hcv
    refine List.any_eq_true.mpr ⟨u, humem, List.any_eq_true.mpr ⟨v, hvmem, ?_⟩⟩
    simp only [Bool.and_eq_true, decide_eq_true_eq]
    exact ⟨⟨hne, reach_complete huv⟩, reach_complete hvu⟩

/-- If every unstaged package still has an unstaged workspace dependency,
the graph contains a self-loop or a nontrivial SCC; contrapositive: the
stage loop always makes progress. -/
theorem stage_progress (ps : List WPkg) (hscc : ¬ NontrivialSCC ps)
    (hself : ∀ x, edgeB ps x x = false) :
    ∀ u : List Str, u ≠ [] → stageReady ps u ≠ [] := by
  intro u hne hempty
  have hstuck : ∀ n ∈ u, ∃ d ∈ wdepsOf ps n, d ∈ u := by
    intro n hn
    have hall := List.filter_eq_nil_iff.mp hempty n hn
    by_contra hcon
    push_neg at hcon
    apply hall
    rw [List.all_eq_true]
    intro d hd
    simp only [decide_eq_true_eq]
    exact hcon d hd
  set g : Str → Str :=
    fun n => ((wdepsOf ps n).filter (fun d => decide (d ∈ u))).head! with hgdef
  have hgmem : ∀ n ∈ u, g n ∈ wdepsOf ps n ∧ g n ∈ u := by
    intro n hn
    obtain ⟨d, hd1, hd2⟩ := hstuck n hn
    have hfne : (wdepsOf ps n).filter (fun d => decide (d ∈ u)) ≠ [] := by
      intro hnil
      have := List.filter_eq_nil_iff.mp hnil d hd1
      simp [hd2] at this
    have hmem := List.mem_filter.mp (List.head!_mem_self hfne)
    exact ⟨hmem.1, of_decide_eq_true hmem.2⟩
  have hedge : ∀ n ∈ u, edgeB ps (g n) n = true := by
    intro n hn
    have h1 := (hgmem n hn).1
    unfold wdepsOf at h1
    cases hpm : pkgMap ps n with
    | none => rw [hpm] at h1; simp at h1
    | some pk =>
      rw [hpm] at h1
      have hpkmem := List.mem_filter.mp
        (List.mem_of_mem_getLast? (Option.mem_def.mpr hpm))
      exact List.any_eq_true.mpr
        ⟨pk, hpkmem.1, decide_eq_true ⟨of_decide_eq_true hpkmem.2, h1⟩⟩
  set n0 := u.head! with hn0def
  have hn0mem : n0 ∈ u := List.head!_mem_self hne
  set f : Nat → Str := fun k => g^[k] n0 with hfdef
  have hfmem : ∀ k, f k ∈ u := by
    intro k
    induction k with
    | zero => exact hn0mem
    | succ k ih =>
      have hit : f (k + 1) = g (f k) := Function.iterate_succ_apply' g k n0
      rw [hit]
      exact (hgmem (f k) ih).2
  have hchain : ∀ i j, i ≤ j → Reach ps (f j) (f i) := by
    intro i j hij
    induction j, hij using Nat.le_induction with
    | base => exact Relation.ReflTransGen.refl
    | succ j hij ih =>
      have hit : f (j + 1) = g (f j) := Function.iterate_succ_apply' g j n0
      have he := hedge (f j) (hfmem j)
      rw [← hit] at he
      have hstep : Reach ps (f (j + 1)) (f j) := Relation.ReflTransGen.single he
      exact hstep.trans ih
  have hcore : ∀ i j : Nat, i < j → f i = f j → False := by
    intro i j hlt heq2
    have hyx : Reach ps (f (i + 1)) (f i) := hchain i (i + 1) (by omega)
    have hxy : Reach ps (f j) (f (i + 1)) := hchain (i + 1) j (by omega)
    rw [← heq2] at hxy
    by_cases hxyEq : f i = f (i + 1)
    · have hit : f (i + 1) = g (f i) := Function.iterate_succ_apply' g i n0
      have he := hedge (f i) (hfmem i)
      rw [← hit, ← hxyEq] at he
      rw [hself (f i)] at he
      exact Bool.false_ne_true he
    · exact hscc ⟨f i, f (i + 1), hxyEq, hxy, hyx⟩
  have hcard : (u.toFinset).card < (Finset.range (u.toFinset.card + 1)).card := by
    simp
  have hmaps : ∀ k ∈ Finset.range (u.toFinset.card + 1), f k ∈ u.toFinset :=
    fun k _ => List.mem_toFinset.mpr (hfmem k)
  obtain ⟨i, _, j, _, hij, heq⟩ :=
    Finset.exists_ne_map_eq_of_card_lt_of_maps_to hcard hmaps
  rcases Nat.lt_or_ge i j with hlt | hge
  · exact hcore i j hlt heq
  · exact hcore j i (by omega) heq.symm

theorem buildStagesAux_nil (ps : List WPkg) (fuel : Nat) :
    buildStagesAux ps fuel [] = [] := by
  cases fuel <;> rfl

theorem aux_stage_sub (ps : List WPkg) :
    ∀ fuel u k n, n ∈ (buildStagesAux ps fuel u).getD k [] → n ∈ u := by
  intro fuel
  induction fuel with
  | zero => intro u k n h; simp [buildStagesAux] at h
  | succ fuel ih =>
    intro u k n h
    by_cases hu : u.isEmpty
    · rw [buildStagesAux, if_pos hu] at h
      simp at h
    · rw [buildStagesAux, if_neg hu] at h
      by_cases hs : (stageReady ps u).isEmpty
      · rw [if_pos hs] at h
        simp at h
      · rw [if_neg hs] at h
        cases k with
        | zero =>
          rw [List.getD_cons_zero] at h
          exact (List.mem_filter.mp h).1
        | succ k =>
          rw [List.getD_cons_succ] at h
          exact (List.mem_filter.mp (ih _ k n h)).1

theorem aux_disjoint (ps : List WPkg) :
    ∀ fuel u i j, i < j → ∀ x, x ∈ (buildStagesAux ps fuel u).getD i [] →
      x ∉ (buildStagesAux ps fuel u).getD j [] := by
  intro fuel
  induction fuel with
  | zero => intro u i j _ x hx; simp [buildStagesAux] at hx
  | succ fuel ih =>
    intro u i j hij x hx hx2
    by_cases hu : u.isEmpty
    · rw [buildStagesAux, if_pos hu] at hx
      simp at hx
    · rw [buildStagesAux, if_neg hu] at hx hx2
      by_cases hs : (stageReady ps u).isEmpty
      · rw [if_pos hs] at hx
        simp at hx
      · rw [if_neg hs] at hx hx2
        cases i with
        | zero =>
          rw [List.getD_cons_zero] at hx
          obtain ⟨j2, rfl⟩ : ∃ j2, j = j2 + 1 := ⟨j - 1, by omega⟩
          rw [List.getD_cons_succ] at hx2
          have hxu := aux_stage_sub ps fuel _ j2 x hx2
          have := of_decide_eq_true (List.mem_filter.mp hxu).2
          exact this hx
        | succ i =>
          obtain ⟨j2, rfl⟩ : ∃ j2, j = j2 + 1 := ⟨j - 1, by omega⟩
          rw [List.getD_cons_succ] at hx hx2
          exact ih _ i j2 (by omega) x hx hx2

theorem aux_deps (ps : List WPkg) :
    ∀ fuel u k n, n ∈ (buildStagesAux ps fuel u).getD k [] →
      ∀ d ∈ wdepsOf ps n, d ∈ u →
        d ∈ ((buildStagesAux ps fuel u).take k).flatten := by
  intro fuel
  induction fuel with
  | zero => intro u k n h; simp [buildStagesAux] at h
  | succ fuel ih =>
    intro u k n h d hd hdu
    by_cases hu : u.isEmpty
    · rw [buildStagesAux, if_pos hu] at h
      simp at h
    · rw [buildStagesAux, if_neg hu] at h ⊢
      by_cases hs : (stageReady ps u).isEmpty
      · rw [if_pos hs] at h
        simp at h
      · rw [if_neg hs] at h ⊢
        cases k with
        | zero =>
          rw [List.getD_cons_zero] at h
          have hall := of_decide_eq_true
            ((List.all_eq_true.mp (List.mem_filter.mp h).2) d hd)
          exact absurd hdu hall
        | succ k =>
          rw [List.getD_cons_succ] at h
          rw [List.take_succ_cons, List.flatten_cons, List.mem_append]
          by_cases hstage : d ∈ stageReady ps u
          · exact Or.inl hstage
          · exact Or.inr (ih _ k n h d hd
              (List.mem_filter.mpr ⟨hdu, decide_eq_true hstage⟩))

theorem aux_union (ps : List WPkg)
    (hprog : ∀ u : List Str, u ≠ [] → stageReady ps u ≠ []) :
    ∀ L fuel u, u.length ≤ L → u.length ≤ fuel →
      ∀ n, n ∈ (buildStagesAux ps fuel u).flatten ↔ n ∈ u := by
  intro L
  induction L with
  | zero =>
    intro fuel u hL _ n
    have hu : u = [] := List.eq_nil_of_length_eq_zero (by omega)
    subst hu
    rw [buildStagesAux_nil]
    simp
  | succ L ih =>
    intro fuel u hL hfuel n
    by_cases hu : u = []
    · subst hu
      rw [buildStagesAux_nil]
      simp
    · have hu' : ¬ u.isEmpty := by simp [List.isEmpty_iff, hu]
      have hlen : 1 ≤ u.length := List.length_pos.mpr hu
      obtain ⟨fuel2, rfl⟩ : ∃ f, fuel = f + 1 := ⟨fuel - 1, by omega⟩
      rw [buildStagesAux, if_neg hu']
      have hs := hprog u hu
      have hs' : ¬ (stageReady ps u).isEmpty := by simp [List.isEmpty_iff, hs]
      rw [if_neg hs']
      have hlt : (u.filter (fun m => decide (m ∉ stageReady ps u))).length < u.length := by
        rw [List.length_filter_lt_length_iff_exists]
        obtain ⟨x, hx⟩ := List.exists_mem_of_ne_nil _ hs
        refine ⟨x, (List.mem_filter.mp hx).1, ?_⟩
        simp [hx]
      rw [List.flatten_cons, List.mem_append,
        ih fuel2 (u.filter (fun m => decide (m ∉ stageReady ps u))) (by omega) (by omega) n]
      constructor
      · rintro (h | h)
        · exact (List.mem_filter.mp h).1
        · exact (List.mem_filter.mp h).1
      · intro hn
        by_cases hstage : n ∈ stageReady ps u
        · exact Or.inl hstage
        · exact Or.inr (List.mem_filter.mpr ⟨hn, decide_eq_true hstage⟩)

theorem aux_len_le (ps : List WPkg) :
    ∀ L fuel u, u.length ≤ L → (buildStagesAux ps fuel u).length ≤ u.length := by
  intro L
  induction L with
  | zero =>
    intro fuel u hL
    have hu : u = [] := List.eq_nil_of_length_eq_zero (by omega)
    subst hu
    rw [buildStagesAux_nil]
    exact le_rfl
  | succ L ih =>
    intro fuel u hL
    cases fuel with
    | zero => simp [buildStagesAux]
    | succ fuel =>
      by_cases hu : u.isEmpty
      · rw [buildStagesAux, if_pos hu]
        simp
      · rw [buildStagesAux, if_neg hu]
        by_cases hs : (stageReady ps u).isEmpty
        · rw [if_pos hs]
          simp
        · rw [if_neg hs]
          have hsne : stageReady ps u ≠ [] := by
            simpa [List.isEmpty_iff] using hs
          have hlt : (u.filter (fun m => decide (m ∉ stageReady ps u))).length
              < u.length := by
            rw [List.length_filter_lt_length_iff_exists]
            obtain ⟨x, hx⟩ := List.exists_mem_of_ne_nil _ hsne
            refine ⟨x, (List.mem_filter.mp hx).1, ?_⟩
            simp [hx]
          have := ih fuel (u.filter (fun m => decide (m ∉ stageReady ps u))) (by omega)
          simp only [List.length_cons]
          omega

theorem aux_fuel_stable (ps : List WPkg) :
    ∀ L f1 f2 u, u.length ≤ L → u.length ≤ f1 → u.length ≤ f2 →
      buildStagesAux ps f1 u = buildStagesAux ps f2 u := by
  intro L
  induction L with
  | zero =>
    intro f1 f2 u hL _ _
    have hu : u = [] := List.eq_nil_of_length_eq_zero (by omega)
    subst hu
    rw [buildStagesAux_nil, buildStagesAux_nil]
  | succ L ih =>
    intro f1 f2 u hL h1 h2
    by_cases hu : u = []
    · subst hu
      rw [buildStagesAux_nil, buildStagesAux_nil]
    · have hu' : ¬ u.isEmpty := by simp [List.isEmpty_iff, hu]
      have hlen : 1 ≤ u.length := List.length_pos.mpr hu
      obtain ⟨g1, rfl⟩ : ∃ g, f1 = g + 1 := ⟨f1 - 1, by omega⟩
      obtain ⟨g2, rfl⟩ : ∃ g, f2 = g + 1 := ⟨f2 - 1, by omega⟩
      rw [buildStagesAux, buildStagesAux, if_neg hu', if_neg hu']
      by_cases hs : (stageReady ps u).isEmpty
      · rw [if_pos hs, if_pos hs]
      · rw [if_neg hs, if_neg hs]
        have hsne : stageReady ps u ≠ [] := by
          simpa [List.isEmpty_iff] using hs
        have hlt : (u.filter (fun m => decide (m ∉ stageReady ps u))).length
            < u.length := by
          rw [List.length_filter_lt_length_iff_exists]
          obtain ⟨x, hx⟩ := List.exists_mem_of_ne_nil _ hsne
          refine ⟨x, (List.mem_filter.mp hx).1, ?_⟩
          simp [hx]
        rw [ih g1 g2 (u.filter (fun m => decide (m ∉ stageReady ps u)))
          (by omega) (by omega) (by omega)]

/-- C9: `calculate_build_stages` terminates within as many loop iterations
as there are packages — running the loop with any fuel at least the size
of the unstaged set gives the same stages, and the number of stages never
exceeds the number of distinct packages. -/
theorem C9_confirmed (ps : List WPkg) (fuel : Nat)
    (h : (distinctList (wNames ps)).length ≤ fuel) :
    buildStagesAux ps fuel (distinctList (wNames ps)) = calculate_build_stages ps ∧
    (calculate_build_stages ps).length ≤ (distinctList (wNames ps)).length := by
  constructor
  · exact aux_fuel_stable ps (distinctList (wNames ps)).length fuel
      (distinctList (wNames ps)).length (distinctList (wNames ps)) le_rfl h le_rfl
  · exact aux_len_le ps (distinctList (wNames ps)).length
      (distinctList (wNames ps)).length (distinctList (wNames ps)) le_rfl

/-- Witness for C9 at a two-package chain and oversize fuel. -/
theorem C9_confirmed_witness :
    ((distinctList (wNames [⟨"a".data, []⟩, ⟨"b".data, ["a".data]⟩])).length ≤ 7) ∧
    (buildStagesAux [⟨"a".data, []⟩, ⟨"b".data, ["a".data]⟩] 7
        (distinctList (wNames [⟨"a".data, []⟩, ⟨"b".data, ["a".data]⟩]))
      = calculate_build_stages [⟨"a".data, []⟩, ⟨"b".data, ["a".data]⟩] ∧
    (calculate_build_stages [⟨"a".data, []⟩, ⟨"b".data, ["a".data]⟩]).length
      ≤ (distinctList (wNames [⟨"a".data, []⟩, ⟨"b".data, ["a".data]⟩])).length) :=
  ⟨by decide, C9_confirmed [⟨"a".data, []⟩, ⟨"b".data, ["a".data]⟩] 7 (by decide)⟩

theorem take_flatten_getD :
    ∀ (l : List (List Str)) (k : Nat) (x : Str), x ∈ (l.take k).flatten →
      ∃ j, j < k ∧ x ∈ l.getD j [] := by
  intro l
  induction l with
  | nil => intro k x hx; simp at hx
  | cons s rest ih =>
    intro k x hx
    cases k with
    | zero => simp at hx
    | succ k =>
      rw [List.take_succ_cons, List.flatten_cons, List.mem_append] at hx
      rcases hx with h | h
      · exact ⟨0, by omega, by rw [List.getD_cons_zero]; exact h⟩
      · obtain ⟨j, hj, hx2⟩ := ih k x h
        exact ⟨j + 1, by omega, by rw [List.getD_cons_succ]; exact hx2⟩

theorem wNames_analyze (pkgs : List RawPkg) :
    wNames (analyze_workspace_dependencies pkgs) = workspaceNames pkgs := by
  unfold wNames analyze_workspace_dependencies workspaceNames
  rw [List.map_map]
  rfl

/-- C2: every package placed in stage `k` has all of its workspace
dependencies in the union of stages before `k`, and none of them in stage
`k` or any later stage. -/
theorem C2_confirmed (pkgs : List RawPkg) (k : Nat) (n : Str)
    (hn : n ∈ (calculate_build_stages (analyze_workspace_dependencies pkgs)).getD k []) :
    (∀ d ∈ wdepsOf (analyze_workspace_dependencies pkgs) n,
      d ∈ ((calculate_build_stages (analyze_workspace_dependencies pkgs)).take k).flatten) ∧
    (∀ d ∈ wdepsOf (analyze_workspace_dependencies pkgs) n,
      ∀ j, k ≤ j →
        d ∉ (calculate_build_stages (analyze_workspace_dependencies pkgs)).getD j []) := by
  have hdep_u0 : ∀ d ∈ wdepsOf (analyze_workspace_dependencies pkgs) n,
      d ∈ distinctList (wNames (analyze_workspace_dependencies pkgs)) := by
    intro d hd
    unfold wdepsOf at hd
    cases hpm : pkgMap (analyze_workspace_dependencies pkgs) n with
    | none => rw [hpm] at hd; simp at hd
    | some pk =>
      rw [hpm] at hd
      have hpkmem := List.mem_filter.mp
        (List.mem_of_mem_getLast? (Option.mem_def.mpr hpm))
      obtain ⟨p, _, hpe⟩ := List.mem_map.mp hpkmem.1
      rw [← hpe] at hd
      simp only [List.mem_filter, decide_eq_true_eq] at hd
      rw [mem_distinctList, wNames_analyze]
      exact hd.2
  constructor
  · intro d hd
    exact aux_deps (analyze_workspace_dependencies pkgs) _ _ k n hn d hd (hdep_u0 d hd)
  · intro d hd j hj hdj
    have h1 := aux_deps (analyze_workspace_dependencies pkgs) _ _ k n hn d hd
      (hdep_u0 d hd)
    obtain ⟨j0, hj0, hdx⟩ := take_flatten_getD _ k d h1
    exact aux_disjoint (analyze_workspace_dependencies pkgs) _ _ j0 j (by omega) d hdx hdj

/-- Witness for C2 at a two-package chain, stage 1. -/
theorem C2_confirmed_witness :
    ("b".data ∈ (calculate_build_stages
        (analyze_workspace_dependencies
          [⟨"a".data, []⟩, ⟨"b".data, ["a".data]⟩])).getD 1 []) ∧
    (∀ d ∈ wdepsOf (analyze_workspace_dependencies
        [⟨"a".data, []⟩, ⟨"b".data, ["a".data]⟩]) ("b".data),
      d ∈ ((calculate_build_stages (analyze_workspace_dependencies
        [⟨"a".data, []⟩, ⟨"b".data, ["a".data]⟩])).take 1).flatten) :=
  ⟨by decide,
   (C2_confirmed [⟨"a".data, []⟩, ⟨"b".data, ["a".data]⟩] 1 ("b".data) (by decide)).1⟩

/-- The C1 counterexample workspace: one package that depends on itself. -/
def c1Pkgs : List RawPkg := [⟨"a".data, ["a".data]⟩]

theorem c1_edge (d p : Str)
    (h : edgeB (analyze_workspace_dependencies c1Pkgs) d p = true) :
    d = "a".data ∧ p = "a".data := by
  obtain ⟨pk, hpk, hcond⟩ := List.any_eq_true.mp h
  have hc := of_decide_eq_true hcond
  have hps : analyze_workspace_dependencies c1Pkgs
      = [⟨"a".data, ["a".data]⟩] := by decide
  rw [hps] at hpk
  have hpk2 := List.mem_singleton.mp hpk
  subst hpk2
  refine ⟨List.mem_singleton.mp hc.2, hc.1.symm⟩

theorem c1_noscc : ¬ NontrivialSCC (analyze_workspace_dependencies c1Pkgs) := by
  rintro ⟨u, v, hne, huv, hvu⟩
  have hcol : ∀ a b, Reach (analyze_workspace_dependencies c1Pkgs) a b → a = b := by
    intro a b hr
    induction hr with
    | refl => rfl
    | tail hst he ih =>
      have he2 := c1_edge _ _ he
      exact ih.trans (he2.1.trans he2.2.symm)
  exact hne (hcol u v huv)

/-- C1 counterexample: the self-dependent package `a` forms no SCC of
size ≥ 2, yet the stage list is not the whole package set — it is empty,
because the stage loop stalls on the self-loop and breaks. -/
theorem C1_counterexample :
    ¬ NontrivialSCC (analyze_workspace_dependencies c1Pkgs) ∧
    ("a".data ∈ workspaceNames c1Pkgs) ∧
    analyze_stages c1Pkgs = [] ∧
    ("a".data ∉ (analyze_stages c1Pkgs).flatten) := by
  have hB : hasNontrivialSCCB (analyze_workspace_dependencies c1Pkgs) = false := by
    rw [← Bool.not_eq_true]
    intro h
    exact c1_noscc ((hasNontrivialSCCB_iff _).mp h)
  have hstages : analyze_stages c1Pkgs = [] := by
    unfold analyze_stages
    rw [if_neg (by simp [hB])]
    decide
  refine ⟨c1_noscc, by decide, hstages, ?_⟩
  rw [hstages]
  simp

theorem analyzed_no_self_edge (pkgs : List RawPkg)
    (hself : ∀ p ∈ pkgs, p.name ∉ p.deps) :
    ∀ x, edgeB (analyze_workspace_dependencies pkgs) x x = false := by
  intro x
  cases hb : edgeB (analyze_workspace_dependencies pkgs) x x
  · rfl
  · exfalso
    obtain ⟨pk, hpk, hcond⟩ := List.any_eq_true.mp hb
    have hc := of_decide_eq_true hcond
    obtain ⟨p, hp, hpe⟩ := List.mem_map.mp hpk
    rw [← hpe] at hc
    simp only [List.mem_filter, decide_eq_true_eq] at hc
    exact hself p hp (hc.1 ▸ hc.2.1)

/-- C1 amended: if the dependency graph has no SCC of size ≥ 2 AND no
package depends on itself, the union of the stage list equals the package
set; when an SCC of size ≥ 2 exists, the stage list is empty and the
cycle detection reports it (so the cycle list is non-empty). The
self-dependency proviso is forced by the counterexample: a self-loop is
not an SCC of size ≥ 2, yet it stalls the stage loop. -/
theorem C1_amended (pkgs : List RawPkg) :
    (¬ NontrivialSCC (analyze_workspace_dependencies pkgs) →
      (∀ p ∈ pkgs, p.name ∉ p.deps) →
      ∀ n, (n ∈ (analyze_stages pkgs).flatten ↔ n ∈ workspaceNames pkgs)) ∧
    (NontrivialSCC (analyze_workspace_dependencies pkgs) →
      analyze_stages pkgs = [] ∧
      hasNontrivialSCCB (analyze_workspace_dependencies pkgs) = true) := by
  constructor
  · intro hscc hself n
    have hB : ¬ (hasNontrivialSCCB (analyze_workspace_dependencies pkgs) = true) := by
      intro h
      exact hscc ((hasNontrivialSCCB_iff _).mp h)
    unfold analyze_stages
    rw [if_neg hB]
    have hprog := stage_progress (analyze_workspace_dependencies pkgs) hscc
      (analyzed_no_self_edge pkgs hself)
    have hiff := aux_union (analyze_workspace_dependencies pkgs) hprog
      (distinctList (wNames (analyze_workspace_dependencies pkgs))).length
      (distinctList (wNames (analyze_workspace_dependencies pkgs))).length
      (distinctList (wNames (analyze_workspace_dependencies pkgs))) le_rfl le_rfl n
    refine hiff.trans ?_
    rw [mem_distinctList, wNames_analyze]
  · intro hscc
    have hB := (hasNontrivialSCCB_iff _).mpr hscc
    refine ⟨?_, hB⟩
    unfold analyze_stages
    rw [if_pos hB]

/-- The cyclic two-package workspace used to witness C1's second branch. -/
def c1CyclePkgs : List RawPkg := [⟨"x".data, ["y".data]⟩, ⟨"y".data, ["x".data]⟩]

/-- Witness for C1 amended at the two-package cycle. -/
theorem C1_amended_witness :
    analyze_stages c1CyclePkgs = [] ∧
    hasNontrivialSCCB (analyze_workspace_dependencies c1CyclePkgs) = true :=
  (C1_amended c1CyclePkgs).2
    ⟨"x".data, "y".data, by decide,
     Relation.ReflTransGen.single (by decide),
     Relation.ReflTransGen.single (by decide)⟩

/-! ## Task scheduler, sequential execution (src/core/scheduler.rs)

`execute_batch` spawns one wrapper per task; each wrapper runs
`execute_task`.  This model executes the tasks sequentially in submission
order — one legal interleaving (e.g. `max_concurrency = 1` with in-order
wakeups) — which suffices for the counter, status-map and
progress-callback claims.  A task's payload is abstracted by its outcome:
completing with a value, completing with an error, or hitting the
timeout race.

Modelled state (the `Arc<RwLock<_>>` cells of `AsyncTaskScheduler`):
the task-status `HashMap` (as an insertion-ordered association list with
replace-on-insert), the stop flag, and the three counters.  Progress
callback invocations are recorded as an event list. -/

inductive TOutcome where
  | ok
  | err
  | tout
deriving DecidableEq

inductive TResult where
  | success
  | failed
  | timeout
  | cancelled
deriving DecidableEq

/-- One entry of the task-status map (`TaskStatus` minus timing fields). -/
structure TaskEntry where
  id : Str
  is_completed : Bool
  is_success : Bool
deriving DecidableEq

structure SchedulerState where
  task_status : List TaskEntry
  should_stop : Bool
  completed_count : Nat
  successful_count : Nat
  failed_count : Nat
  progress_events : List (Nat × Nat)
deriving DecidableEq

structure SchedConfig where
  fail_fast : Bool
  has_progress_callback : Bool
deriving DecidableEq

/-- `HashMap::insert`: replaces the entry with the same key, otherwise
appends. -/
def insertStatus : List TaskEntry → TaskEntry → List TaskEntry
  | [], e => [e]
  | x :: r, e => if x.id = e.id then e :: r else x :: insertStatus r e

/-- `get_mut` + field updates of `record_task_completion`. -/
def updateStatus (l : List TaskEntry) (tid : Str) (b : Bool) : List TaskEntry :=
  l.map (fun x => if x.id = tid then ⟨x.id, true, b⟩ else x)

/-- Embedding of `record_task_start`. -/
def record_task_start (st : SchedulerState) (tid : Str) : SchedulerState :=
  { st with task_status := insertStatus st.task_status ⟨tid, false, false⟩ }

/-- Embedding of `record_task_completion`. -/
def record_task_completion (st : SchedulerState) (tid : Str) (is_success : Bool) :
    SchedulerState :=
  { st with task_status := updateStatus st.task_status tid is_success }

/-- Embedding of `update_counters_and_progress`: bump the counters, then
invoke the progress callback (when configured) with the new completed
count and the CURRENT SIZE OF THE STATUS MAP as the total. -/
def update_counters_and_progress (cfg : SchedConfig) (st : SchedulerState)
    (is_success : Bool) : SchedulerState :=
  { st with
    completed_count := st.completed_count + 1
    successful_count := st.successful_count + (if is_success then 1 else 0)
    failed_count := st.failed_count + (if is_success then 0 else 1)
    progress_events := st.progress_events ++
      (if cfg.has_progress_callback
       then [(st.completed_count + 1, st.task_status.length)] else []) }

/-- The outcome of awaiting the payload under the timeout race. -/
def resultOfOutcome : TOutcome → TResult
  | .ok => .success
  | .err => .failed
  | .tout => .timeout

/-- Embedding of `execute_task`: an early `Cancelled` return when the
stop flag is set (before any recording or callback), otherwise run,
record, update counters/progress, and set the stop flag on a
non-success when `fail_fast` is on. -/
def execute_task (cfg : SchedConfig) (st : SchedulerState) (tid : Str)
    (outcome : TOutcome) : SchedulerState × TResult :=
  if st.should_stop then (st, .cancelled)
  else
    (let r := resultOfOutcome outcome
     let is_success := decide (r = TResult.success)
     let st3 := update_counters_and_progress cfg
       (record_task_completion (record_task_start st tid) tid is_success) is_success
     (if cfg.fail_fast && !is_success then { st3 with should_stop := true } else st3,
      r))

/-- One step of the batch loop: run the task, append its result. -/
def batchStep (cfg : SchedConfig) (acc : SchedulerState × List (Str × TResult))
    (t : Str × TOutcome) : SchedulerState × List (Str × TResult) :=
  ((execute_task cfg acc.1 t.1 t.2).1,
   acc.2 ++ [(t.1, (execute_task cfg acc.1 t.1 t.2).2)])

/-- Embedding of `execute_batch`: an empty batch returns immediately;
otherwise the stop flag and the three counters are reset — the status map
is NOT cleared — and every task is executed. -/
def execute_batch (cfg : SchedConfig) (st : SchedulerState)
    (tasks : List (Str × TOutcome)) : SchedulerState × List (Str × TResult) :=
  if tasks.isEmpty then (st, [])
  else
    tasks.foldl (batchStep cfg)
      ({ st with
          should_stop := false
          completed_count := 0
          successful_count := 0
          failed_count := 0 }, [])

/-- Embedding of `get_progress`: the completed counter and the size of
the task-status map. -/
def get_progress (st : SchedulerState) : Nat × Nat :=
  (st.completed_count, st.task_status.length)

/-- A freshly constructed scheduler. -/
def initState : SchedulerState := ⟨[], false, 0, 0, 0, []⟩

/-- C4 counterexample: with `fail_fast` and a progress callback, a batch
of two tasks whose first fails produces exactly ONE callback invocation
`(1, 1)` — none for the cancelled second task, and the reported total is
the status-map size 1, not the 2 tasks submitted in the batch. -/
theorem C4_counterexample :
    (execute_batch ⟨true, true⟩ initState
        [("a".data, TOutcome.err), ("b".data, TOutcome.ok)]).1.progress_events
      = [(1, 1)] ∧
    (execute_batch ⟨true, true⟩ initState
        [("a".data, TOutcome.err), ("b".data, TOutcome.ok)]).2
      = [("a".data, TResult.failed), ("b".data, TResult.cancelled)] ∧
    ([("a".data, TOutcome.err), ("b".data, TOutcome.ok)].length = 2) := by
  refine ⟨by decide, by decide, rfl⟩

theorem insertStatus_fresh {l : List TaskEntry} {e : TaskEntry}
    (h : ∀ x ∈ l, x.id ≠ e.id) : insertStatus l e = l ++ [e] := by
  induction l with
  | nil => rfl
  | cons x r ih =>
    rw [insertStatus, if_neg (h x (List.mem_cons_self x r)),
      ih (fun y hy => h y (List.mem_cons_of_mem x hy))]
    rfl

theorem updateStatus_fresh_append {l : List TaskEntry} {tid : Str} {b : Bool}
    (h : ∀ x ∈ l, x.id ≠ tid) :
    updateStatus (l ++ [⟨tid, false, false⟩]) tid b = l ++ [⟨tid, true, b⟩] := by
  unfold updateStatus
  rw [List.map_append]
  congr 1
  · have heach : ∀ x ∈ l,
        (if x.id = tid then (⟨x.id, true, b⟩ : TaskEntry) else x) = x :=
      fun x hx => if_neg (h x hx)
    calc l.map (fun x => if x.id = tid then (⟨x.id, true, b⟩ : TaskEntry) else x)
        = l.map id := List.map_congr_left heach
      _ = l := List.map_id l
  · simp

/-- How one iteration of the batch loop transforms the state when the
stop flag is clear and the task id is fresh. -/
theorem execute_task_eq (cfg : SchedConfig) (st : SchedulerState) (tid : Str)
    (oc : TOutcome) (hstop : ¬ (st.should_stop = true))
    (hfresh : ∀ x ∈ st.task_status, x.id ≠ tid) :
    execute_task cfg st tid oc =
      ({ task_status := st.task_status ++
          [⟨tid, true, decide (resultOfOutcome oc = TResult.success)⟩]
         should_stop := cfg.fail_fast && !(decide (resultOfOutcome oc = TResult.success))
         completed_count := st.completed_count + 1
         successful_count := st.successful_count +
           (if decide (resultOfOutcome oc = TResult.success) then 1 else 0)
         failed_count := st.failed_count +
           (if decide (resultOfOutcome oc = TResult.success) then 0 else 1)
         progress_events := st.progress_events ++
           (if cfg.has_progress_callback
            then [(st.completed_count + 1, st.task_status.length + 1)] else []) },
       resultOfOutcome oc) := by
  have hins : insertStatus st.task_status ⟨tid, false, false⟩
      = st.task_status ++ [⟨tid, false, false⟩] := insertStatus_fresh hfresh
  have hstop2 : st.should_stop = false := by
    revert hstop; cases st.should_stop <;> simp
  unfold execute_task update_counters_and_progress record_task_completion
    record_task_start
  rw [if_neg hstop]
  simp only [hins, updateStatus_fresh_append hfresh]
  by_cases hb : (cfg.fail_fast
      && !(decide (resultOfOutcome oc = TResult.success))) = true
  · rw [if_pos hb]
    simp [hb, List.length_append]
  · have hb2 : (cfg.fail_fast
        && !(decide (resultOfOutcome oc = TResult.success))) = false := by
      revert hb
      cases (cfg.fail_fast && !(decide (resultOfOutcome oc = TResult.success))) <;> simp
    rw [if_neg hb]
    simp [hb2, hstop2, List.length_append]

theorem resultOfOutcome_ne_cancelled (oc : TOutcome) :
    resultOfOutcome oc ≠ TResult.cancelled := by
  cases oc <;> simp [resultOfOutcome]

/-- The batch loop, fully characterised on batches with fresh, distinct
task ids: some prefix count `m` of tasks actually runs; counters advance
by `m`; the status map gains `m` entries; the progress callback fires
once per run task with the running totals; with `fail_fast` off every
task runs. -/
theorem batch_fold_spec (cfg : SchedConfig) :
    ∀ (tasks : List (Str × TOutcome)) (st : SchedulerState)
      (res0 : List (Str × TResult)),
      (tasks.map Prod.fst).Nodup →
      (∀ tid ∈ tasks.map Prod.fst, ∀ e ∈ st.task_status, e.id ≠ tid) →
      ∃ m, m ≤ tasks.length ∧
        (tasks.foldl (batchStep cfg) (st, res0)).2.length
          = res0.length + tasks.length ∧
        ((tasks.foldl (batchStep cfg) (st, res0)).2.filter
            (fun p => decide (p.2 ≠ TResult.cancelled))).length
          = (res0.filter (fun p => decide (p.2 ≠ TResult.cancelled))).length + m ∧
        (tasks.foldl (batchStep cfg) (st, res0)).1.completed_count
          = st.completed_count + m ∧
        (tasks.foldl (batchStep cfg) (st, res0)).1.task_status.length
          = st.task_status.length + m ∧
        (tasks.foldl (batchStep cfg) (st, res0)).1.progress_events
          = st.progress_events ++
            (if cfg.has_progress_callback then
              (List.range m).map (fun i =>
                (st.completed_count + i + 1, st.task_status.length + i + 1))
             else []) ∧
        (st.should_stop = true → m = 0) ∧
        (cfg.fail_fast = false → st.should_stop = false →
          m = tasks.length ∧
          (tasks.foldl (batchStep cfg) (st, res0)).1.should_stop = false) ∧
        (∀ e ∈ (tasks.foldl (batchStep cfg) (st, res0)).1.task_status,
          e ∈ st.task_status ∨ e.id ∈ tasks.map Prod.fst) := by
  intro tasks
  induction tasks with
  | nil =>
    intro st res0 _ _
    refine ⟨0, by omega, by simp, by simp, by simp, by simp, by simp, fun _ => rfl,
      fun _ h2 => ⟨rfl, h2⟩, fun e he => Or.inl he⟩
  | cons t rest ih =>
    intro st res0 hnd hdisj
    obtain ⟨tid, oc⟩ := t
    rw [List.map_cons] at hnd
    have hnd2 : (rest.map Prod.fst).Nodup := (List.nodup_cons.mp hnd).2
    have htid_fresh : tid ∉ rest.map Prod.fst := (List.nodup_cons.mp hnd).1
    by_cases hstop : st.should_stop = true
    · -- the stop flag is already set: this task is cancelled untouched
      have hexec : execute_task cfg st tid oc = (st, TResult.cancelled) := by
        unfold execute_task
        rw [if_pos hstop]
      have hstep : batchStep cfg (st, res0) (tid, oc)
          = (st, res0 ++ [(tid, TResult.cancelled)]) := by
        unfold batchStep
        rw [hexec]
      rw [List.foldl_cons, hstep]
      have hdisj2 : ∀ tid2 ∈ rest.map Prod.fst, ∀ e ∈ st.task_status, e.id ≠ tid2 :=
        fun tid2 ht2 => hdisj tid2 (by rw [List.map_cons]; exact List.mem_cons_of_mem _ ht2)
      obtain ⟨m, hmle, hlen, hfil, hcomp, hstat, hev, hstop0, hff, hids⟩ :=
        ih st (res0 ++ [(tid, TResult.cancelled)]) hnd2 hdisj2
      have hm0 : m = 0 := hstop0 hstop
      subst hm0
      refine ⟨0, by omega, by rw [hlen]; simp; omega, ?_, hcomp, hstat, hev,
        fun _ => rfl, ?_, ?_⟩
      · rw [hfil]
        simp
      · intro _ h2
        rw [hstop] at h2
        cases h2
      · intro e he
        rcases hids e he with h | h
        · exact Or.inl h
        · exact Or.inr (by rw [List.map_cons]; exact List.mem_cons_of_mem _ h)
    · -- the task actually runs
      have hfresh : ∀ x ∈ st.task_status, x.id ≠ tid :=
        hdisj tid (by rw [List.map_cons]; exact List.mem_cons_self _ _)
      have hexec := execute_task_eq cfg st tid oc hstop hfresh
      have hstep : batchStep cfg (st, res0) (tid, oc)
          = ({ task_status := st.task_status ++
                [⟨tid, true, decide (resultOfOutcome oc = TResult.success)⟩]
               should_stop := cfg.fail_fast
                 && !(decide (resultOfOutcome oc = TResult.success))
               completed_count := st.completed_count + 1
               successful_count := st.successful_count +
                 (if decide (resultOfOutcome oc = TResult.success) then 1 else 0)
               failed_count := st.failed_count +
                 (if decide (resultOfOutcome oc = TResult.success) then 0 else 1)
               progress_events := st.progress_events ++
                 (if cfg.has_progress_callback
                  then [(st.completed_count + 1, st.task_status.length + 1)]
                  else []) },
             res0 ++ [(tid, resultOfOutcome oc)]) := by
        unfold batchStep
        rw [hexec]
      rw [List.foldl_cons, hstep]
      set st4 : SchedulerState :=
        { task_status := st.task_status ++
            [⟨tid, true, decide (resultOfOutcome oc = TResult.success)⟩]
          should_stop := cfg.fail_fast
            && !(decide (resultOfOutcome oc = TResult.success))
          completed_count := st.completed_count + 1
          successful_count := st.successful_count +
            (if decide (resultOfOutcome oc = TResult.success) then 1 else 0)
          failed_count := st.failed_count +
            (if decide (resultOfOutcome oc = TResult.success) then 0 else 1)
          progress_events := st.progress_events ++
            (if cfg.has_progress_callback
             then [(st.completed_count + 1, st.task_status.length + 1)] else []) }
        with hst4
      have hc4 : st4.completed_count = st.completed_count + 1 := rfl
      have hl4 : st4.task_status
          = st.task_status ++
            [⟨tid, true, decide (resultOfOutcome oc = TResult.success)⟩] := rfl
      have hL4 : st4.task_status.length = st.task_status.length + 1 := by
        rw [hl4, List.length_append]
        rfl
      have he4 : st4.progress_events = st.progress_events ++
          (if cfg.has_progress_callback
           then [(st.completed_count + 1, st.task_status.length + 1)] else []) := rfl
      have hs4 : st4.should_stop
          = (cfg.fail_fast && !(decide (resultOfOutcome oc = TResult.success))) := rfl
      have hdisj2 : ∀ tid2 ∈ rest.map Prod.fst, ∀ e ∈ st4.task_status, e.id ≠ tid2 := by
        intro tid2 ht2 e he
        rw [hl4] at he
        rcases List.mem_append.mp he with h | h
        · exact hdisj tid2 (by rw [List.map_cons]; exact List.mem_cons_of_mem _ ht2) e h
        · have he2 := List.mem_singleton.mp h
          subst he2
          intro hcon
          rw [← hcon] at ht2
          exact htid_fresh ht2
      obtain ⟨m, hmle, hlen, hfil, hcomp, hstat, hev, hstop0, hff, hids⟩ :=
        ih st4 (res0 ++ [(tid, resultOfOutcome oc)]) hnd2 hdisj2
      refine ⟨m + 1, by simp; omega, by rw [hlen]; simp; omega, ?_, ?_, ?_, ?_, ?_, ?_, ?_⟩
      · -- non-cancelled count
        rw [hfil, List.filter_append]
        simp [resultOfOutcome_ne_cancelled oc]
        omega
      · -- completed counter
        rw [hcomp, hc4]
        omega
      · -- status-map size
        rw [hstat, hL4]
        omega
      · -- progress events
        by_cases hcb : cfg.has_progress_callback = true
        · rw [hev, he4]
          simp only [if_pos hcb]
          rw [List.append_assoc]
          congr 1
          rw [List.range_succ_eq_map, List.map_cons, List.map_map,
            List.singleton_append]
          congr 1
          apply List.map_congr_left
          intro i _
          simp only [Function.comp_apply, Prod.mk.injEq, hc4, hL4]
          omega
        · rw [hev, he4]
          simp only [if_neg hcb]
          simp
      · -- stop at entry forces zero runs: contradiction with this branch
        intro h
        exact absurd h hstop
      · -- fail_fast off: everything runs, flag stays clear
        intro hffno hstop2
        have hst4stop : st4.should_stop = false := by
          rw [hs4, hffno]
          rfl
        obtain ⟨hm, hflag⟩ := hff hffno hst4stop
        refine ⟨?_, hflag⟩
        rw [List.length_cons]
        omega
      · -- every status entry is old or stems from a submitted task
        intro e he
        rcases hids e he with h | h
        · rw [hl4] at h
          rcases List.mem_append.mp h with h2 | h2
          · exact Or.inl h2
          · have he2 := List.mem_singleton.mp h2
            subst he2
            exact Or.inr (by rw [List.map_cons]; exact List.mem_cons_self _ _)
        · exact Or.inr (by rw [List.map_cons]; exact List.mem_cons_of_mem _ h)

theorem getLast?_map_range {α : Type} (f : Nat → α) (m : Nat) (hm : 0 < m) :
    ((List.range m).map f).getLast? = some (f (m - 1)) := by
  obtain ⟨k, rfl⟩ : ∃ k, m = k + 1 := ⟨m - 1, by omega⟩
  rw [List.range_succ, List.map_append, List.getLast?_append]
  simp

/-- C4 amended: the progress callback is invoked exactly once per task
that reaches Success, Failed or Timeout — a task cancelled by the
fail-fast stop flag triggers NO invocation — and the i-th invocation on a
fresh scheduler receives `(i+1, i+1)`: the batch completed counter and
the CURRENT SIZE OF THE TASK-STATUS MAP, not the number of tasks
submitted in the batch. -/
theorem C4_amended (cfg : SchedConfig) (tasks : List (Str × TOutcome))
    (hcb : cfg.has_progress_callback = true)
    (hnd : (tasks.map Prod.fst).Nodup) :
    (execute_batch cfg initState tasks).2.length = tasks.length ∧
    (execute_batch cfg initState tasks).1.progress_events.length
      = ((execute_batch cfg initState tasks).2.filter
          (fun p => decide (p.2 ≠ TResult.cancelled))).length ∧
    ∀ i, i < (execute_batch cfg initState tasks).1.progress_events.length →
      ((execute_batch cfg initState tasks).1.progress_events).getD i (0, 0)
        = (i + 1, i + 1) := by
  by_cases hempty : tasks.isEmpty
  · have ht : tasks = [] := List.isEmpty_iff.mp hempty
    subst ht
    refine ⟨rfl, rfl, ?_⟩
    intro i h
    have h2 : (execute_batch cfg initState []).1.progress_events = [] := rfl
    rw [h2] at h
    simp at h
  · have hreset : execute_batch cfg initState tasks
        = tasks.foldl (batchStep cfg) (initState, []) := by
      unfold execute_batch
      rw [if_neg hempty]
      rfl
    obtain ⟨m, hmle, hlen, hfil, hcomp, hstat, hev, _, _, _⟩ :=
      batch_fold_spec cfg tasks initState [] hnd
        (fun tid _ e he => absurd he (List.not_mem_nil e))
    rw [hreset]
    have hinitev : (initState.progress_events : List (Nat × Nat)) = [] := rfl
    refine ⟨by rw [hlen]; simp, ?_, ?_⟩
    · rw [hev, hfil]
      simp only [if_pos hcb, hinitev, List.nil_append]
      simp [initState]
    · intro i h
      rw [hev] at h ⊢
      simp only [if_pos hcb, hinitev, List.nil_append] at h ⊢
      rw [List.length_map, List.length_range] at h
      rw [List.getD_eq_getElem?_getD, List.getElem?_map, List.getElem?_range h]
      simp [initState]

/-- Witness for C4 amended at a concrete two-task batch with fail-fast. -/
theorem C4_amended_witness :
    ((⟨true, true⟩ : SchedConfig).has_progress_callback = true ∧
      ([("a".data, TOutcome.err), ("b".data, TOutcome.ok)].map Prod.fst).Nodup) ∧
    ((execute_batch ⟨true, true⟩ initState
        [("a".data, TOutcome.err), ("b".data, TOutcome.ok)]).2.length = 2 ∧
      (execute_batch ⟨true, true⟩ initState
          [("a".data, TOutcome.err), ("b".data, TOutcome.ok)]).1.progress_events.length
        = ((execute_batch ⟨true, true⟩ initState
            [("a".data, TOutcome.err), ("b".data, TOutcome.ok)]).2.filter
            (fun p => decide (p.2 ≠ TResult.cancelled))).length ∧
      ∀ i, i < (execute_batch ⟨true, true⟩ initState
          [("a".data, TOutcome.err), ("b".data, TOutcome.ok)]).1.progress_events.length →
        ((execute_batch ⟨true, true⟩ initState
            [("a".data, TOutcome.err), ("b".data, TOutcome.ok)]).1.progress_events).getD
          i (0, 0) = (i + 1, i + 1)) :=
  ⟨⟨rfl, by decide⟩,
   C4_amended ⟨true, true⟩ [("a".data, TOutcome.err), ("b".data, TOutcome.ok)]
     rfl (by decide)⟩

/-- C10: `execute_batch` resets the stop flag and the counters but never
clears the task-status map, so on a reused scheduler the completed
counter covers only the current batch, while the total — the status-map
size reported by `get_progress` and by the progress callback — also
counts every task started in earlier batches. -/
theorem C10_confirmed (cfg : SchedConfig) (b1 b2 : List (Str × TOutcome))
    (hff : cfg.fail_fast = false) (hcb : cfg.has_progress_callback = true)
    (hnd : ((b1 ++ b2).map Prod.fst).Nodup) (hb2 : b2 ≠ []) :
    get_progress (execute_batch cfg (execute_batch cfg initState b1).1 b2).1
      = (b2.length, b1.length + b2.length) ∧
    (execute_batch cfg initState b1).1.task_status.length = b1.length ∧
    (execute_batch cfg (execute_batch cfg initState b1).1 b2).1.completed_count
      = b2.length ∧
    (execute_batch cfg (execute_batch cfg initState b1).1 b2).1.task_status.length
      = b1.length + b2.length ∧
    (execute_batch cfg (execute_batch cfg initState b1).1 b2).1.progress_events.getLast?
      = some (b2.length, b1.length + b2.length) := by
  rw [List.map_append] at hnd
  obtain ⟨hnd1, hnd2, hdisj12⟩ := List.nodup_append.mp hnd
  -- facts about the state after the first batch
  have hb1 : (execute_batch cfg initState b1).1.task_status.length = b1.length ∧
      (∀ e ∈ (execute_batch cfg initState b1).1.task_status,
        e.id ∈ b1.map Prod.fst) := by
    by_cases he1 : b1.isEmpty
    · have hb1nil : b1 = [] := List.isEmpty_iff.mp he1
      subst hb1nil
      exact ⟨rfl, fun e he => absurd he (List.not_mem_nil e)⟩
    · have hreset1 : execute_batch cfg initState b1
          = b1.foldl (batchStep cfg) (initState, []) := by
        unfold execute_batch
        rw [if_neg he1]
        rfl
      obtain ⟨m1, _, _, _, _, hstat1, _, _, hff1, hids1⟩ :=
        batch_fold_spec cfg b1 initState [] hnd1
          (fun tid _ e he => absurd he (List.not_mem_nil e))
      obtain ⟨hm1, _⟩ := hff1 hff rfl
      rw [hreset1]
      have h0 : initState.task_status.length = 0 := rfl
      refine ⟨by rw [hstat1, hm1, h0]; omega, ?_⟩
      intro e he
      rcases hids1 e he with h | h
      · exact absurd h (List.not_mem_nil e)
      · exact h
  -- the second batch really runs
  have he2 : ¬ b2.isEmpty := by
    simpa [List.isEmpty_iff] using hb2
  have hreset2 : execute_batch cfg (execute_batch cfg initState b1).1 b2
      = b2.foldl (batchStep cfg)
          ({ (execute_batch cfg initState b1).1 with
              should_stop := false
              completed_count := 0
              successful_count := 0
              failed_count := 0 }, []) := by
    unfold execute_batch
    rw [if_neg he2]
  set st1r : SchedulerState :=
    { (execute_batch cfg initState b1).1 with
        should_stop := false
        completed_count := 0
        successful_count := 0
        failed_count := 0 } with hst1r
  have hst1r_status : st1r.task_status = (execute_batch cfg initState b1).1.task_status :=
    rfl
  have hfresh2 : ∀ tid ∈ b2.map Prod.fst, ∀ e ∈ st1r.task_status, e.id ≠ tid := by
    intro tid ht e he
    rw [hst1r_status] at he
    have he_id := hb1.2 e he
    intro hcon
    exact (hdisj12 he_id) (hcon ▸ ht)
  obtain ⟨m2, _, _, _, hcomp2, hstat2, hev2, _, hff2, _⟩ :=
    batch_fold_spec cfg b2 st1r [] hnd2 hfresh2
  obtain ⟨hm2, _⟩ := hff2 hff rfl
  have hcompr : st1r.completed_count = 0 := rfl
  have hstatr : st1r.task_status.length = b1.length := by
    rw [hst1r_status]
    exact hb1.1
  rw [hreset2]
  have hcomp2' : (b2.foldl (batchStep cfg) (st1r, [])).1.completed_count = b2.length := by
    rw [hcomp2, hcompr, hm2]
    omega
  have hstat2' : (b2.foldl (batchStep cfg) (st1r, [])).1.task_status.length
      = b1.length + b2.length := by
    rw [hstat2, hstatr, hm2]
  refine ⟨?_, hb1.1, hcomp2', hstat2', ?_⟩
  · unfold get_progress
    rw [hcomp2', hstat2']
  · rw [hev2]
    simp only [if_pos hcb]
    rw [List.getLast?_append, hm2,
      getLast?_map_range _ b2.length (List.length_pos.mpr hb2)]
    have hlen1 : 1 ≤ b2.length := List.length_pos.mpr hb2
    have hX : (execute_batch cfg initState b1).1.task_status.length = b1.length := hb1.1
    simp only [Option.or, Option.some.injEq, Prod.mk.injEq, hX, hcompr, hstatr]
    omega

/-- Witness for C10 at two concrete one-task batches. -/
theorem C10_confirmed_witness :
    get_progress (execute_batch ⟨false, true⟩
        (execute_batch ⟨false, true⟩ initState [("a".data, TOutcome.ok)]).1
        [("b".data, TOutcome.ok)]).1 = (1, 2) ∧
    (execute_batch ⟨false, true⟩
        (execute_batch ⟨false, true⟩ initState [("a".data, TOutcome.ok)]).1
        [("b".data, TOutcome.ok)]).1.progress_events.getLast? = some (1, 2) := by
  have h := C10_confirmed ⟨false, true⟩ [("a".data, TOutcome.ok)]
    [("b".data, TOutcome.ok)] rfl rfl (by decide) (by decide)
  exact ⟨h.1, h.2.2.2.2⟩

/-! ## Task scheduler, interleaved execution (src/core/scheduler.rs)

For the fail-fast claim the await points of `execute_task` matter, so the
scheduler is also modelled as a small-step machine.  Each task moves
through the phases of `execute_task`:

* `pending`  — spawned, has not yet read the stop flag;
* `waiting`  — passed the stop check, awaiting a semaphore permit;
* `running`  — holds a permit, its payload is executing;
* `done r`   — reached the terminal result `r`.

One step is one await point: `check` reads the stop flag (an early
`Cancelled` return when it is set), `acquire` takes a free permit,
`finish` completes the payload, records the result and — under
`fail_fast` with a non-success — sets the stop flag.  Any interleaving of
these steps is a legal execution of the tokio tasks. -/

inductive TaskPhase where
  | pending
  | waiting
  | running
  | done (r : TResult)
deriving DecidableEq

structure ConcConfig where
  fail_fast : Bool
  max_concurrency : Nat
  outcomes : List TOutcome
deriving DecidableEq

structure ConcState where
  stop : Bool
  permits : Nat
  phases : List TaskPhase
deriving DecidableEq

inductive SchedAction where
  | check (i : Nat)
  | acquire (i : Nat)
  | finish (i : Nat)
deriving DecidableEq

/-- One atomic step of one task's wrapper; `none` when the action is not
enabled in this state. -/
def concStep (cfg : ConcConfig) (s : ConcState) : SchedAction → Option ConcState
  | .check i =>
    if s.phases.get? i = some TaskPhase.pending then
      some (if s.stop
        then { s with phases := s.phases.set i (.done .cancelled) }
        else { s with phases := s.phases.set i .waiting })
    else none
  | .acquire i =>
    if s.phases.get? i = some TaskPhase.waiting then
      if s.permits = 0 then none
      else some { s with permits := s.permits - 1, phases := s.phases.set i .running }
    else none
  | .finish i =>
    if s.phases.get? i = some TaskPhase.running then
      some { stop := s.stop || (cfg.fail_fast
               && !(decide (resultOfOutcome (cfg.outcomes.getD i TOutcome.err)
                      = TResult.success)))
             permits := s.permits + 1
             phases := s.phases.set i (.done (resultOfOutcome
               (cfg.outcomes.getD i TOutcome.err))) }
    else none

/-- Run a sequence of steps; `none` as soon as one is not enabled. -/
def concRun (cfg : ConcConfig) (s : ConcState) : List SchedAction → Option ConcState
  | [] => some s
  | a :: acts =>
    match concStep cfg s a with
    | some s2 => concRun cfg s2 acts
    | none => none

/-- The state right after `execute_batch` spawned all wrappers. -/
def concInit (cfg : ConcConfig) : ConcState :=
  ⟨false, cfg.max_concurrency, List.replicate cfg.outcomes.length .pending⟩

/-- The C3 counterexample configuration: fail-fast, one permit, a failing
task 0 and a succeeding task 1. -/
def c3Cfg : ConcConfig := ⟨true, 1, [TOutcome.err, TOutcome.ok]⟩

/-- C3 counterexample: both tasks pass the stop check, task 0 runs and
FAILS (setting the stop flag), yet task 1 — not yet started at that
moment — still acquires the permit, transitions to running after the
failure, and ends in Success, not Cancelled. -/
theorem C3_counterexample :
    concRun c3Cfg (concInit c3Cfg)
        [.check 0, .check 1, .acquire 0, .finish 0]
      = some ⟨true, 1, [.done .failed, .waiting]⟩ ∧
    concRun c3Cfg (concInit c3Cfg)
        [.check 0, .check 1, .acquire 0, .finish 0, .acquire 1]
      = some ⟨true, 0, [.done .failed, .running]⟩ ∧
    concRun c3Cfg (concInit c3Cfg)
        [.check 0, .check 1, .acquire 0, .finish 0, .acquire 1, .finish 1]
      = some ⟨true, 1, [.done .failed, .done .success]⟩ := by
  refine ⟨by decide, by decide, by decide⟩

/-- Single-step preservation: once the stop flag is set, a task that has
not yet performed its stop check stays pending or becomes cancelled, and
the flag stays set. -/
theorem concStep_pending_preserved {cfg : ConcConfig} {s s2 : ConcState}
    {a : SchedAction} {i : Nat} (hstep : concStep cfg s a = some s2)
    (hstop : s.stop = true)
    (hi : s.phases.get? i = some .pending ∨ s.phases.get? i = some (.done .cancelled)) :
    s2.stop = true ∧
    (s2.phases.get? i = some .pending ∨ s2.phases.get? i = some (.done .cancelled)) := by
  match a with
  | .check k =>
    simp only [concStep] at hstep
    by_cases hk : s.phases.get? k = some TaskPhase.pending
    · rw [if_pos hk, if_pos hstop] at hstep
      simp only [Option.some_inj] at hstep
      subst hstep
      refine ⟨hstop, ?_⟩
      by_cases hik : k = i
      · subst hik
        right
        rw [List.get?_set_eq, hk]
        rfl
      · rw [List.get?_set_ne _ _ hik]
        exact hi
    · rw [if_neg hk] at hstep
      cases hstep
  | .acquire k =>
    simp only [concStep] at hstep
    by_cases hk : s.phases.get? k = some TaskPhase.waiting
    · rw [if_pos hk] at hstep
      by_cases hp : s.permits = 0
      · rw [if_pos hp] at hstep
        cases hstep
      · rw [if_neg hp] at hstep
        simp only [Option.some_inj] at hstep
        subst hstep
        have hik : k ≠ i := by
          intro hk2
          subst hk2
          rcases hi with h | h <;> rw [hk] at h <;> cases h
        refine ⟨hstop, ?_⟩
        rw [List.get?_set_ne _ _ hik]
        exact hi
    · rw [if_neg hk] at hstep
      cases hstep
  | .finish k =>
    simp only [concStep] at hstep
    by_cases hk : s.phases.get? k = some TaskPhase.running
    · rw [if_pos hk] at hstep
      simp only [Option.some_inj] at hstep
      subst hstep
      have hik : k ≠ i := by
        intro hk2
        subst hk2
        rcases hi with h | h <;> rw [hk] at h <;> cases h
      constructor
      · rw [hstop]
        rfl
      · rw [List.get?_set_ne _ _ hik]
        exact hi
    · rw [if_neg hk] at hstep
      cases hstep

theorem concRun_pending_preserved {cfg : ConcConfig} :
    ∀ (acts : List SchedAction) (s s2 : ConcState) (i : Nat),
      concRun cfg s acts = some s2 → s.stop = true →
      (s.phases.get? i = some .pending ∨ s.phases.get? i = some (.done .cancelled)) →
      (s2.phases.get? i = some .pending ∨
        s2.phases.get? i = some (.done .cancelled)) := by
  intro acts
  induction acts with
  | nil =>
    intro s s2 i h hstop hi
    unfold concRun at h
    simp only [Option.some_inj] at h
    subst h
    exact hi
  | cons a rest ih =>
    intro s s2 i h hstop hi
    unfold concRun at h
    cases hs : concStep cfg s a with
    | none => rw [hs] at h; cases h
    | some smid =>
      rw [hs] at h
      obtain ⟨hstop2, hi2⟩ := concStep_pending_preserved hs hstop hi
      exact ih smid s2 i h hstop2 hi2

/-- The fail-fast invariant: a Failed or Timeout terminal state keeps
the stop flag set. -/
def FailImpliesStop (s : ConcState) : Prop :=
  ∀ j r, s.phases.get? j = some (.done r) → (r = .failed ∨ r = .timeout) →
    s.stop = true

theorem concStep_fail_stop {cfg : ConcConfig} (hff : cfg.fail_fast = true)
    {s s2 : ConcState} {a : SchedAction} (hstep : concStep cfg s a = some s2)
    (hinv : FailImpliesStop s) : FailImpliesStop s2 := by
  match a with
  | .check k =>
    simp only [concStep] at hstep
    by_cases hk : s.phases.get? k = some TaskPhase.pending
    · rw [if_pos hk] at hstep
      by_cases hstop : s.stop = true
      · rw [if_pos hstop] at hstep
        simp only [Option.some_inj] at hstep
        subst hstep
        intro j r hj hr
        exact hstop
      · rw [if_neg hstop] at hstep
        simp only [Option.some_inj] at hstep
        subst hstep
        intro j r hj hr
        by_cases hjk : k = j
        · subst hjk
          rw [List.get?_set_eq, hk] at hj
          cases hj
        · rw [List.get?_set_ne _ _ hjk] at hj
          exact hinv j r hj hr
    · rw [if_neg hk] at hstep
      cases hstep
  | .acquire k =>
    simp only [concStep] at hstep
    by_cases hk : s.phases.get? k = some TaskPhase.waiting
    · rw [if_pos hk] at hstep
      by_cases hp : s.permits = 0
      · rw [if_pos hp] at hstep
        cases hstep
      · rw [if_neg hp] at hstep
        simp only [Option.some_inj] at hstep
        subst hstep
        intro j r hj hr
        by_cases hjk : k = j
        · subst hjk
          rw [List.get?_set_eq, hk] at hj
          cases hj
        · rw [List.get?_set_ne _ _ hjk] at hj
          exact hinv j r hj hr
    · rw [if_neg hk] at hstep
      cases hstep
  | .finish k =>
    simp only [concStep] at hstep
    by_cases hk : s.phases.get? k = some TaskPhase.running
    · rw [if_pos hk] at hstep
      simp only [Option.some_inj] at hstep
      subst hstep
      intro j r hj hr
      by_cases hjk : k = j
      · subst hjk
        rw [List.get?_set_eq, hk] at hj
        simp only [Option.map_eq_map, Option.map_some, Option.some_inj] at hj
        have hne : resultOfOutcome (cfg.outcomes.getD k TOutcome.err)
            ≠ TResult.success := by
          intro hcon
          have hrs : r = TResult.success := by
            injection hj with hj2
            rw [← hj2, hcon]
          rcases hr with h | h <;> rw [hrs] at h <;> cases h
        simp only [hff, decide_eq_true_eq]
        rw [decide_eq_false hne]
        simp
      · rw [List.get?_set_ne _ _ hjk] at hj
        have := hinv j r hj hr
        rw [this]
        rfl
    · rw [if_neg hk] at hstep
      cases hstep

theorem concRun_fail_stop {cfg : ConcConfig} (hff : cfg.fail_fast = true) :
    ∀ (acts : List SchedAction) (s s2 : ConcState),
      concRun cfg s acts = some s2 → FailImpliesStop s → FailImpliesStop s2 := by
  intro acts
  induction acts with
  | nil =>
    intro s s2 h hinv
    unfold concRun at h
    simp only [Option.some_inj] at h
    subst h
    exact hinv
  | cons a rest ih =>
    intro s s2 h hinv
    unfold concRun at h
    cases hs : concStep cfg s a with
    | none => rw [hs] at h; cases h
    | some smid =>
      rw [hs] at h
      exact ih smid s2 h (concStep_fail_stop hff hs hinv)

theorem concInit_fail_stop (cfg : ConcConfig) : FailImpliesStop (concInit cfg) := by
  intro j r hj _
  unfold concInit at hj
  rw [List.get?_eq_getElem?, List.getElem?_replicate] at hj
  by_cases hlt : j < cfg.outcomes.length
  · rw [if_pos hlt] at hj
    cases hj
  · rw [if_neg hlt] at hj
    cases hj

/-- C3 amended: under `fail_fast`, once some task has reached Failed or
Timeout in a reachable state, every task that has NOT YET performed its
stop-flag check never transitions to running in any continuation: it
stays pending or ends Cancelled.  (The original claim fails for tasks
that already passed the check but were still waiting for a semaphore
permit — see the counterexample — because the flag is read only before
permit acquisition.) -/
theorem C3_amended (cfg : ConcConfig) (hff : cfg.fail_fast = true)
    (acts : List SchedAction) (s : ConcState)
    (hrun : concRun cfg (concInit cfg) acts = some s)
    (j : Nat) (r : TResult) (hj : s.phases.get? j = some (.done r))
    (hr : r = TResult.failed ∨ r = TResult.timeout)
    (i : Nat) (hi : s.phases.get? i = some .pending)
    (ext : List SchedAction) (s2 : ConcState)
    (hext : concRun cfg s ext = some s2) :
    s2.phases.get? i = some .pending ∨
    s2.phases.get? i = some (.done .cancelled) := by
  have hinv : FailImpliesStop s :=
    concRun_fail_stop hff acts (concInit cfg) s hrun (concInit_fail_stop cfg)
  have hstop : s.stop = true := hinv j r hj hr
  exact concRun_pending_preserved ext s s2 i hext hstop (Or.inl hi)

/-- Witness for C3 amended: after task 0 fails, the pending task 1 is
cancelled by its stop check. -/
theorem C3_amended_witness :
    (⟨true, 1, [TaskPhase.done TResult.failed, TaskPhase.done TResult.cancelled]⟩
        : ConcState).phases.get? 1 = some TaskPhase.pending ∨
    (⟨true, 1, [TaskPhase.done TResult.failed, TaskPhase.done TResult.cancelled]⟩
        : ConcState).phases.get? 1 = some (TaskPhase.done TResult.cancelled) :=
  C3_amended c3Cfg rfl [.check 0, .acquire 0, .finish 0]
    ⟨true, 1, [.done .failed, .pending]⟩ (by decide)
    0 TResult.failed (by decide) (Or.inl rfl)
    1 (by decide) [.check 1]
    ⟨true, 1, [.done .failed, .done .cancelled]⟩ (by decide)

end Monox
